import Mathlib

/-!
# Verification of the winpath PATH-optimization core

This file gives a shallow embedding, in Lean 4, of the core string-processing
functions of the winpath repository (a Windows PATH / PATHEXT optimizer written
in Go), together with theorems settling the specification claims about them.

Modelling conventions:

* Go strings are modelled as `List Char` (`Str`).  The repository only ever
  manipulates PATH text, which is ASCII in all relevant respects; byte indexing
  and "rune" issues therefore do not arise, and `strings.ToLower` is modelled
  as ASCII lowercasing.
* Functions reaching outside the process (PowerShell invocations, `os.Stat`,
  the persisted config file, the process environment) are parameterised by
  explicit oracle arguments: an environment map `EnvMap`, a filesystem
  existence oracle `Str → Bool`, short-name oracles `Str → Str × Bool`, and a
  `Config` value standing for `LoadConfig()`.  These correspond to the
  "external collaborators" of the specification.
* Go's `map[string]T` is modelled as an association list where insertion conses
  in front and lookup takes the first hit (= last insertion wins), and
  `map[string]bool` sets as membership lists.
* Loops that are not structurally recursive are written with an explicit fuel
  argument so that every definition is executable by kernel reduction; the
  fuel supplied is always provably sufficient (or, for `ExpandEnvVars`, the
  subject of a termination claim).
-/

set_option maxHeartbeats 1000000

namespace WinPath

/-- Go strings, modelled as lists of characters. -/
abbrev Str := List Char

/-- ASCII lowercasing of one character, modelling `strings.ToLower` on the
ASCII fragment the repository manipulates. -/
def lowerChar (c : Char) : Char :=
  if 'A' ≤ c ∧ c ≤ 'Z' then Char.ofNat (c.toNat + 32) else c

/-- `strings.ToLower`. -/
def strLower (s : Str) : Str := s.map lowerChar

/-- A Windows path separator (`os.IsPathSeparator`): backslash or slash. -/
def isSlashC (c : Char) : Bool := c == '\\' || c == '/'

/-- ASCII whitespace, modelling `unicode.IsSpace` on the ASCII range
(for `strings.TrimSpace`). -/
def isSpaceC (c : Char) : Bool :=
  c == ' ' || c == '\t' || c == '\n' || c == '\x0b' || c == '\x0c' || c == '\r'

/-- `strings.TrimSpace`. -/
def trimSpace (s : Str) : Str :=
  ((s.dropWhile isSpaceC).reverse.dropWhile isSpaceC).reverse

/-- `strings.TrimRight` with the backslash-slash cutset: drop trailing separators. -/
def trimRightSlashes (s : Str) : Str :=
  (s.reverse.dropWhile isSlashC).reverse

/-- `strings.Split` for a one-character separator: splits `s` at every
occurrence of `c`, keeping empty segments. -/
def goSplit (c : Char) : Str → List Str
  | [] => [[]]
  | x :: xs =>
    match goSplit c xs, decide (x = c) with
    | r, true => [] :: r
    | [], false => [[x]]
    | h :: t, false => (x :: h) :: t

/-- `strings.Join` with a one-character separator. -/
def goJoin (c : Char) : List Str → Str
  | [] => []
  | [s] => s
  | s :: rest => s ++ c :: goJoin c rest

theorem goSplit_ne_nil (c : Char) (s : Str) : goSplit c s ≠ [] := by
  cases s with
  | nil => simp [goSplit]
  | cons x xs =>
    simp only [goSplit]
    rcases h : goSplit c xs with _ | ⟨h₁, t₁⟩ <;> rcases hx : decide (x = c) <;> simp

/-- Splitting and rejoining is the identity (`strings.Join(strings.Split(s, sep), sep) == s`). -/
theorem goJoin_goSplit (c : Char) (s : Str) : goJoin c (goSplit c s) = s := by
  induction s with
  | nil => rfl
  | cons x xs ih =>
    simp only [goSplit]
    rcases h : goSplit c xs with _ | ⟨h₁, t₁⟩
    · exact absurd h (goSplit_ne_nil c xs)
    · rcases hx : decide (x = c) with _ | _
      · simp only []
        rw [h] at ih
        cases t₁ with
        | nil => simpa [goJoin] using congrArg (x :: ·) ih
        | cons a b => simpa [goJoin] using congrArg (x :: ·) ih
      · have hxc : x = c := of_decide_eq_true hx
        subst hxc
        simp only [goJoin]
        rw [h] at ih
        cases t₁ <;> simp_all [goJoin]

/-! ## registry.go: ParsePath / JoinPath -/

/-- `ParsePath` (registry.go): split a raw PATH string on `;`, trim whitespace,
drop empty segments, preserving order. -/
def ParsePath (pathStr : Str) : List Str :=
  if pathStr = [] then []
  else ((goSplit ';' pathStr).map trimSpace).filter (fun e => e ≠ [])

/-- `JoinPath` (registry.go): join entries with `;`. -/
def JoinPath (entries : List Str) : Str := goJoin ';' entries

/-! Length lemmas used for the savings claim (C5). -/

theorem length_goJoin_cons (c : Char) (s : Str) (l : List Str) :
    (goJoin c (s :: l)).length = s.length + (goJoin c l).length + (if l = [] then 0 else 1) := by
  cases l with
  | nil => simp [goJoin]
  | cons a t => simp [goJoin]; ring

/-- Joined length as a sum: `|join l| + 1 = Σ (|e|+1)` for nonempty `l`. -/
theorem length_goJoin (c : Char) (l : List Str) (h : l ≠ []) :
    (goJoin c l).length + 1 = (l.map (fun e => e.length + 1)).sum := by
  induction l with
  | nil => simp at h
  | cons s t ih =>
    rcases eq_or_ne t [] with rfl | ht
    · simp [goJoin]
    · rw [length_goJoin_cons, if_neg ht]
      simp only [List.map_cons, List.sum_cons]
      have := ih ht
      omega

/-! ## Model of Go `path/filepath` (Windows) — `Clean` and its helpers

`NormalizePath` in the repository calls `filepath.Clean`, a Go standard-library
function (not part of the repository source).  The definitions below model the
Windows implementation of `Clean` from the Go standard library (Go 1.21+:
drive-letter, UNC and DOS-device volume syntax, and the `postClean`
volume-reinterpretation guard).  The `lazybuf` optimisation of the original is
modelled by the Boolean flag carried next to the output buffer: it is `true`
exactly when every character appended so far coincided with the corresponding
character of the input (`buf == nil` in Go), which is what `postClean` tests. -/

/-- ASCII uppercasing of one character (Go `toUpper` on path bytes). -/
def upperChar (c : Char) : Char :=
  if 'a' ≤ c ∧ c ≤ 'z' then Char.ofNat (c.toNat - 32) else c

/-- Match `pre` against the front of `s`, case-insensitively and treating both
separators as equal; returns the remainder of `s` on success. -/
def foldMatch : Str → Str → Option Str
  | s, [] => some s
  | [], _ :: _ => none
  | c :: cs, p :: ps =>
    if (if isSlashC p then isSlashC c else upperChar c == upperChar p)
    then foldMatch cs ps else none

/-- Go `pathHasPrefixFold`: `s` starts with `pre` (fold/slash-insensitively),
and if longer, the next character is a separator. -/
def pathHasPrefixFold (s pre : Str) : Bool :=
  match foldMatch s pre with
  | none => false
  | some [] => true
  | some (c :: _) => isSlashC c

/-- Scanning core of Go `uncLen`: index of the second separator at or after
the start position, or the total length. -/
def uncLenAux (count : Nat) : Str → Nat → Nat
  | [], i => i
  | c :: cs, i =>
    if isSlashC c then
      (if count + 1 == 2 then i else uncLenAux (count + 1) cs (i + 1))
    else uncLenAux count cs (i + 1)

/-- Go `uncLen`: length of the volume of a UNC path whose host part starts at
`pl`: up to (excluding) the second separator from `pl` on, or the whole path. -/
def uncLen (path : Str) (pl : Nat) : Nat :=
  let rest := path.drop pl
  uncLenAux 0 rest (path.length - rest.length)

/-- Go `cutPath`: split around the first separator. -/
def cutPath : Str → Str × Str × Bool
  | [] => ([], [], false)
  | c :: cs =>
    if isSlashC c then ([], cs, true)
    else
      let r := cutPath cs
      (c :: r.1, r.2.1, r.2.2)

/-- The letters of the DOS-device UNC volume marker. -/
def uncMarker : Str := ['\\', '\\', '.', '\\', 'U', 'N', 'C']

/-- Go `volumeNameLen` (Windows, Go 1.21+): length of the leading volume name:
drive (`x:`), DOS device (`\\.\dev`, `\\?\dev`), device UNC (`\\.\UNC\h\s`) or
plain UNC (`\\host\share`). -/
def volumeNameLen (path : Str) : Nat :=
  if 2 ≤ path.length ∧ path.get? 1 = some ':' then 2
  else if path.length = 0 ∨ ¬ isSlashC (path.getD 0 ' ') then 0
  else if pathHasPrefixFold path uncMarker then uncLen path 8
  else if 3 ≤ path.length ∧ isSlashC (path.getD 1 ' ') ∧
          (path.get? 2 = some '.' ∨ path.get? 2 = some '?') ∧
          (path.length = 3 ∨ isSlashC (path.getD 3 ' ')) then
    (if path.length = 3 then 3 else 4 + (cutPath (path.drop 4)).1.length)
  else if 2 ≤ path.length ∧ isSlashC (path.getD 1 ' ') then uncLen path 2
  else 0

/-- Go `FromSlash`: replace `/` by the canonical separator. -/
def fromSlash (s : Str) : Str := s.map (fun c => if c == '/' then '\\' else c)

/-- One `lazybuf.append`: push `c` and record whether it still coincides with
the input `rest` at that position (`buf == nil` in Go). -/
def appendC (rest : Str) (out : Str × Bool) (c : Char) : Str × Bool :=
  (out.1 ++ [c], out.2 && (rest.get? out.1.length == some c))

/-- Append a whole element character by character. -/
def appendStr (rest : Str) (out : Str × Bool) (e : Str) : Str × Bool :=
  e.foldl (appendC rest) out

/-- The `while out.w > dotdot && !isSep(out[w])` scan of the `..` backtracking
step: final value of `w`, starting the scan at the given index. -/
def shrinkW (out : Str) (dotdot : Nat) : Nat → Nat
  | 0 => 0
  | w + 1 =>
    if dotdot < w + 1 && !(isSlashC (out.getD (w + 1) ' ')) then shrinkW out dotdot w
    else w + 1

/-- The `..` backtracking step: pop the last element of the buffer. -/
def backtrack (out : Str × Bool) (dotdot : Nat) : Str × Bool :=
  (out.1.take (shrinkW out.1 dotdot (out.1.length - 1)), out.2)

/-- `true` when the element starting here ends (end of input or separator). -/
def sepNextB : Str → Bool
  | [] => true
  | d :: _ => isSlashC d

/-- `true` when the rest continues a `..` element: a dot then end/separator. -/
def dotNextB : Str → Bool
  | '.' :: cs => sepNextB cs
  | _ => false

/-- The main loop of Go `Clean` (Windows): processes the path after the volume,
skipping empty and `.` elements, resolving `..`, and copying real elements
separated by single backslashes.  `rest` is the full after-volume input (for
the lazy-buffer comparison), `fuel` a structural-recursion bound that is always
supplied `> length` of the path still to process. -/
def cleanLoop (rest : Str) : Nat → Str → (Str × Bool) → Bool → Nat → (Str × Bool)
  | _, [], out, _, _ => out
  | 0, _ :: _, out, _, _ => out
  | fuel + 1, c :: cs, out, rooted, dotdot =>
    if isSlashC c then cleanLoop rest fuel cs out rooted dotdot
    else if c = '.' ∧ sepNextB cs then cleanLoop rest fuel cs out rooted dotdot
    else if c = '.' ∧ dotNextB cs then
      -- `..` element
      let cs2 := cs.tail
      if dotdot < out.1.length then
        cleanLoop rest fuel cs2 (backtrack out dotdot) rooted dotdot
      else if !rooted then
        let out1 := if out.1.length ≠ 0 then appendC rest out '\\' else out
        let out2 := appendC rest (appendC rest out1 '.') '.'
        cleanLoop rest fuel cs2 out2 rooted out2.1.length
      else cleanLoop rest fuel cs2 out rooted dotdot
    else
      -- real element: copy up to the next separator
      let out1 :=
        if (rooted && out.1.length ≠ 1) || (!rooted && out.1.length ≠ 0)
        then appendC rest out '\\' else out
      let elem := (c :: cs).takeWhile (fun d => !isSlashC d)
      let p2 := (c :: cs).dropWhile (fun d => !isSlashC d)
      cleanLoop rest fuel p2 (appendStr rest out1 elem) rooted dotdot

/-- Go `postClean`: guard against the cleaned result being re-parsed as a
volume-relative (`x:`) or root-local-device (`\??\`) path.  Skipped when a
volume is present or the buffer never diverged from the input. -/
def postClean (volLen : Nat) (out : Str × Bool) : Str :=
  if volLen ≠ 0 || out.2 then out.1
  else if (out.1.takeWhile (fun c => !isSlashC c)).contains ':' then
    '.' :: '\\' :: out.1
  else
    match out.1 with
    | a :: '?' :: '?' :: _ => if isSlashC a then '\\' :: '.' :: out.1 else out.1
    | _ => out.1

/-- Model of Go `filepath.Clean` (Windows). -/
def goClean (path : Str) : Str :=
  let volLen := volumeNameLen path
  match path.drop volLen with
  | [] =>
    if 1 < volLen ∧ path.get? 1 ≠ some ':' then fromSlash path
    else path ++ ['.']
  | c :: cs =>
    let rest := c :: cs
    let rooted := isSlashC c
    let init : Str × Bool := if rooted then appendC rest ([], true) '\\' else ([], true)
    let p0 := if rooted then cs else rest
    let dd0 := if rooted then 1 else 0
    let res := cleanLoop rest (rest.length + 1) p0 init rooted dd0
    let res := if res.1.length = 0 then appendC rest res '.' else res
    fromSlash (path.take volLen ++ postClean volLen res)

/-! ## optimizer: NormalizePath, PathExists -/

/-- `NormalizePath` (optimizer): lowercase, strip trailing separators, clean. -/
def NormalizePath (p : Str) : Str := goClean (trimRightSlashes (strLower p))

/-- `PathExists` (optimizer): entries with an unexpanded `%` are treated as
existing; otherwise ask the filesystem oracle (`os.Stat`). -/
def PathExists (fs : Str → Bool) (path : Str) : Bool :=
  if path.contains '%' then true else fs path

/-! ## envvars.go -/

/-- An environment map, modelling `GetAllEnvVars()` (built from the process
environment) and `os.Getenv`: an association list, lookup takes the first
binding. -/
abbrev EnvMap := List (Str × Str)

/-- Map lookup (`value, ok := envVars[name]`). -/
def envLookup (env : EnvMap) (name : Str) : Option Str :=
  (env.find? (fun p => p.1 == name)).map (fun p => p.2)

/-- `os.Getenv`: empty string when unset. -/
def getenv (env : EnvMap) (name : Str) : Str := (envLookup env name).getD []

/-- `SubstitutionPriority` (envvars.go): the fixed priority-ordered variable
list, most specific first. -/
def SubstitutionPriority : List Str :=
  ["LOCALAPPDATA", "APPDATA", "USERPROFILE", "ProgramFiles(x86)", "ProgramFiles",
   "ProgramW6432", "CommonProgramFiles(x86)", "CommonProgramFiles", "SystemRoot",
   "WINDIR", "SystemDrive", "JAVA_HOME", "GOPATH", "GOROOT", "CARGO_HOME",
   "RUSTUP_HOME", "NVM_HOME", "NVM_SYMLINK", "PNPM_HOME"].map String.toList

/-- `expandShortUserPath` (envvars.go): expand an 8.3 short name in the
user-profile segment of a path, using `SystemDrive` and `USERPROFILE` from the
environment. -/
def expandShortUserPath (env : EnvMap) (path : Str) : Str :=
  let pathLower := strLower path
  let sd := strLower (getenv env "SystemDrive".toList)
  let systemDrive := if sd = [] then ['c', ':'] else sd
  let usersDir := systemDrive ++ '\\' :: "users".toList ++ ['\\']
  if ¬ usersDir.isPrefixOf pathLower then path
  else
    let afterUsers := path.drop usersDir.length
    match afterUsers.findIdx? (fun c => c == '\\') with
    | none => path
    | some nextSlash =>
      let userPart := afterUsers.take nextSlash
      if ¬ userPart.contains '~' then path
      else
        let userProfile := getenv env "USERPROFILE".toList
        if userProfile = [] then path
        else if ¬ usersDir.isPrefixOf (strLower userProfile) then path
        else
          let realUserPart0 := userProfile.drop usersDir.length
          let realUserPart :=
            match realUserPart0.findIdx? (fun c => c == '\\') with
            | some idx => realUserPart0.take idx
            | none => realUserPart0
          userProfile.take usersDir.length ++ realUserPart ++ afterUsers.drop nextSlash

/-- The running best match of `SubstituteEnvVars` (`bestMatch` in the source). -/
structure BestMatch where
  varName : Str
  remaining : Str
  saved : Int
deriving DecidableEq

/-- One iteration of the candidate loop of `SubstituteEnvVars`: consider the
variable `varName` and keep it if its value is a case-insensitive prefix of the
(8.3-expanded) path at a path boundary and it saves strictly more than the
current best. -/
def substStep (env : EnvMap) (path np npLower : Str) (best : BestMatch)
    (varName : Str) : BestMatch :=
  match envLookup env varName with
  | none => best
  | some value =>
    if value = [] then best
    else if (strLower value).isPrefixOf npLower then
      let remaining := np.drop value.length
      if remaining = [] ∨ remaining.getD 0 ' ' = '\\' ∨ remaining.getD 0 ' ' = '/' then
        let newPath := '%' :: varName ++ '%' :: remaining
        let saved : Int := (path.length : Int) - (newPath.length : Int)
        if best.saved < saved then ⟨varName, remaining, saved⟩ else best
      else best
    else best

/-- `SubstituteEnvVars` (envvars.go): replace a path prefix by the best-saving
`%VAR%` from the priority list. -/
def SubstituteEnvVars (env : EnvMap) (path : Str) : Str × Bool :=
  if path = [] ∨ path.contains '%' then (path, false)
  else
    let np := expandShortUserPath env path
    let best := SubstitutionPriority.foldl (substStep env path np (strLower np)) ⟨[], [], 0⟩
    if best.varName ≠ [] ∧ 0 < best.saved then
      ('%' :: best.varName ++ '%' :: best.remaining, true)
    else (path, false)

/-- The replacement loop of `ExpandEnvVars` (envvars.go), with explicit fuel:
`none` means the given number of iterations did not finish the loop.  Each
iteration finds the first `%name%` token; if the variable resolves to a
non-empty value the token is replaced and the loop continues, otherwise the
loop stops, leaving the token in place. -/
def expandLoop (env : EnvMap) : Nat → Str → Option Str
  | 0, _ => none
  | fuel + 1, result =>
    match result.findIdx? (fun c => c == '%') with
    | none => some result
    | some start =>
      match (result.drop (start + 1)).findIdx? (fun c => c == '%') with
      | none => some result
      | some e0 =>
        let endP := e0 + start + 1
        let varName := (result.drop (start + 1)).take e0
        let value :=
          match envLookup env varName with
          | some v => v
          | none => getenv env varName
        if value ≠ [] then
          expandLoop env fuel (result.take start ++ value ++ result.drop (endP + 1))
        else some result

/-- `ExpandEnvVars` (envvars.go) with an explicit iteration budget. -/
def ExpandEnvVars (env : EnvMap) (fuel : Nat) (path : Str) : Option Str :=
  if path = [] ∨ ¬ path.contains '%' then some path else expandLoop env fuel path

/-- The replacement loop of `ExpandEnvVars` terminates on this input: some
finite number of iterations reaches a return. -/
def ExpandTerminates (env : EnvMap) (path : Str) : Prop :=
  ∃ fuel, (expandLoop env fuel path).isSome

/-! ## pathext.go -/

/-- `OptimalOrder` (pathext.go): the fixed recommended extension order. -/
def OptimalOrder : List Str :=
  [".EXE", ".CMD", ".BAT", ".PS1", ".PY", ".PYW", ".COM", ".MSC", ".JS",
   ".VBS", ".VBE", ".JSE", ".WSF", ".WSH"].map String.toList

/-- `RemovableExtensions` (pathext.go): the rarely-used set. -/
def RemovableExtensions : List Str :=
  [".VBE", ".JSE", ".WSF", ".WSH"].map String.toList

/-- `PathExtOptimization` (pathext.go). -/
structure PathExtOptimization where
  Original : Str
  Optimized : List Str
  OptimizedString : Str
  Changed : Bool
deriving DecidableEq

/-- Loop body of the first phase of `OptimizePathExt`. -/
def phase1Step (current : List Str) (keepAll : Bool) (acc : List Str × List Str)
    (ext : Str) : List Str × List Str :=
  if current.contains ext then
    if keepAll || !(RemovableExtensions.contains ext) then
      (acc.1 ++ [ext], acc.2 ++ [ext])
    else acc
  else acc

/-- First phase of `OptimizePathExt`: walk the optimal-order template,
keeping extensions present in the current list (subject to the rarely-used
filter), and record them in the `added` set. -/
def optPhase1 (current : List Str) (keepAll : Bool) : List Str × List Str :=
  OptimalOrder.foldl (phase1Step current keepAll) ([], [])

/-- Loop body of the second phase of `OptimizePathExt`. -/
def phase2Step (added : List Str) (keepAll : Bool) (acc : List Str) (ext : Str) :
    List Str :=
  if !(added.contains ext) then
    if keepAll || !(RemovableExtensions.contains ext) then acc ++ [ext]
    else acc
  else acc

/-- Second phase of `OptimizePathExt`: append current extensions not added by
the template walk, under the same rarely-used filter. -/
def optPhase2 (current added : List Str) (keepAll : Bool) : List Str :=
  current.foldl (phase2Step added keepAll) []

/-- `OptimizePathExt` (pathext.go).  `current` is the parsed current PATHEXT
(`ParsePathExt("")` in the source, a shell read of the effective value —
an external input here). -/
def OptimizePathExt (current : List Str) (keepAll : Bool) : PathExtOptimization :=
  let original := goJoin ';' current
  let ph := optPhase1 current keepAll
  let optimized := ph.1 ++ optPhase2 current ph.2 keepAll
  let optimizedStr := goJoin ';' optimized
  { Original := original
    Optimized := optimized
    OptimizedString := optimizedStr
    Changed := original != optimizedStr }

/-! ## backup.go: RestoreBackup -/

/-- One scope of a `Backup` record (raw string plus parsed entries). -/
structure PathSnapshot where
  Raw : Str
  Entries : List Str
deriving DecidableEq

/-- `Backup` (backup.go). -/
structure Backup where
  Timestamp : Str
  Hostname : Str
  Suffix : Str
  SystemPath : PathSnapshot
  UserPath : PathSnapshot
deriving DecidableEq

/-- The error outcomes of `RestoreBackup`: load failure, or a wrapped
`SetPath` failure for one of the two scopes. -/
inductive RestoreError where
  | loadFailed (e : Str)
  | userFailed (e : Str)
  | systemFailed (e : Str)
deriving DecidableEq

/-- The `"User"` scope tag. -/
def scopeUser : Str := "User".toList

/-- The `"System"` scope tag. -/
def scopeSystem : Str := "System".toList

/-- `RestoreBackup` (backup.go), modelled over a `SetPath` oracle
(`setPath value scope` returns `some err` on failure).  The result records the
`SetPath` calls performed, in order, and the returned error.  `load` is the
outcome of `LoadBackup`; the best-effort `CreateBackup("pre-restore")` does not
touch PATH state and the final `BroadcastEnvChange` is fire-and-forget, so
neither appears in the model. -/
def RestoreBackup (load : Except Str Backup) (setPath : Str → Str → Option Str)
    (isAdmin : Bool) : List (Str × Str) × Option RestoreError :=
  match load with
  | .error e => ([], some (.loadFailed e))
  | .ok bk =>
    if bk.UserPath.Raw ≠ [] then
      match setPath bk.UserPath.Raw scopeUser with
      | some e => ([(bk.UserPath.Raw, scopeUser)], some (.userFailed e))
      | none =>
        if isAdmin ∧ bk.SystemPath.Raw ≠ [] then
          match setPath bk.SystemPath.Raw scopeSystem with
          | some e =>
            ([(bk.UserPath.Raw, scopeUser), (bk.SystemPath.Raw, scopeSystem)],
             some (.systemFailed e))
          | none =>
            ([(bk.UserPath.Raw, scopeUser), (bk.SystemPath.Raw, scopeSystem)], none)
        else ([(bk.UserPath.Raw, scopeUser)], none)
    else
      if isAdmin ∧ bk.SystemPath.Raw ≠ [] then
        match setPath bk.SystemPath.Raw scopeSystem with
        | some e => ([(bk.SystemPath.Raw, scopeSystem)], some (.systemFailed e))
        | none => ([(bk.SystemPath.Raw, scopeSystem)], none)
      else ([], none)

/-! ## The optimization pipeline (part_002 inline version, part_003
entry-processor version) -/

/-- `OptimizeOptions`. -/
structure OptimizeOptions where
  RemoveDuplicates : Bool
  RemoveDeadPaths : Bool
  ShortenPaths : Bool
  SubstituteVars : Bool
  ReorderPaths : Bool
  Scope : Str
deriving DecidableEq

/-- `DefaultOptions`. -/
def DefaultOptions : OptimizeOptions :=
  { RemoveDuplicates := true, RemoveDeadPaths := true, ShortenPaths := true,
    SubstituteVars := true, ReorderPaths := false, Scope := "User".toList }

/-- `PathChange`.  (`Typ` is the Go field `Type`, a reserved word here.) -/
structure PathChange where
  Typ : Str
  Original : Str
  New : Str
  Saved : Int
deriving DecidableEq

/-- `PathInfo` (the `Original`/`Optimized` snapshots of `OptimizeResult`). -/
structure PathInfo where
  Raw : Str
  Entries : List Str
  Length : Nat
  Count : Nat
deriving DecidableEq

/-- `OptimizeMetrics`.  Go's `float64` percentage is modelled exactly as a
rational: both implementations compute it by the same arithmetic expression
from the same integers, so equality is preserved by the model. -/
structure OptimizeMetrics where
  DuplicatesRemoved : Nat
  DeadPathsRemoved : Nat
  PathsShortened : Nat
  VarsSubstituted : Nat
  TotalSaved : Int
  PercentageSaved : ℚ
deriving DecidableEq

/-- `OptimizeResult`. -/
structure OptimizeResult where
  Original : PathInfo
  Optimized : PathInfo
  Changes : List PathChange
  Metrics : OptimizeMetrics
deriving DecidableEq

/-- `Config` (backup.go), as returned by `LoadConfig()`. -/
structure Config where
  JunctionFolder : Str
  MaxBackups : Int
  AutoBackup : Bool
  HotPaths : List Str
deriving DecidableEq

/-- The external capabilities consumed by the pipeline: the process
environment, the `os.Stat` existence check, and the two PowerShell-backed
short-name operations `ToShortPath` and `ShortenSuffix`. -/
structure Oracles where
  env : EnvMap
  fs : Str → Bool
  toShort : Str → Str × Bool
  shortenSfx : Str → Str × Bool

/-- The mutable state threaded through entry processing: the change log, the
metric counters, and the `seen` set of normalized entries. -/
structure ProcState where
  changes : List PathChange
  duplicatesRemoved : Nat
  deadPathsRemoved : Nat
  pathsShortened : Nat
  varsSubstituted : Nat
  totalSaved : Int
  seen : List Str
deriving DecidableEq

/-- The initial processing state. -/
def initState : ProcState := ⟨[], 0, 0, 0, 0, 0, []⟩

/-- The `"duplicate"` change type. -/
def chgDuplicate : Str := "duplicate".toList
/-- The `"dead"` change type. -/
def chgDead : Str := "dead".toList
/-- The `"shortened"` change type. -/
def chgShortened : Str := "shortened".toList
/-- The `"variable"` change type. -/
def chgVariable : Str := "variable".toList

/-- `applyHotPaths` (identical in both optimizer versions): move entries whose
normalized form matches a configured hot path to the front, in hot-path
declaration order; remaining entries keep their relative order.  The Go
`map[string]int` is the assoc list `buildHotSet` (first hit = last insert), the
`hot`/`hotFound` arrays are a list of `Option`. -/
def buildHotSet (hotPaths : List Str) : List (Str × Nat) :=
  hotPaths.enum.foldl (fun m p => (NormalizePath p.2, p.1) :: m) []

/-- Lookup in the hot-path map. -/
def hotLookup (m : List (Str × Nat)) (k : Str) : Option Nat :=
  (m.find? (fun q => q.1 == k)).map (fun q => q.2)

/-- The entry-distribution fold of `applyHotPaths`. -/
def hotFold (hotSet : List (Str × Nat)) (entries : List Str)
    (init : List (Option Str) × List Str) : List (Option Str) × List Str :=
  entries.foldl
    (fun st entry =>
      match hotLookup hotSet (NormalizePath entry) with
      | some idx => (st.1.set idx (some entry), st.2)
      | none => (st.1, st.2 ++ [entry]))
    init

/-- `applyHotPaths`. -/
def applyHotPaths (entries hotPaths : List Str) : List Str :=
  if hotPaths = [] then entries
  else
    let st := hotFold (buildHotSet hotPaths) entries
      (List.replicate hotPaths.length none, [])
    st.1.reduceOption ++ st.2

namespace Proc

/-! The part_003 version: `entryProcessor` with one method per check. -/

/-- `entryProcessor.isDuplicate`. -/
def isDuplicate (opts : OptimizeOptions) (st : ProcState) (entry normalized : Str) :
    ProcState × Bool :=
  if !opts.RemoveDuplicates then (st, false)
  else if st.seen.contains normalized then
    ({ st with
        changes := st.changes ++ [⟨chgDuplicate, entry, [], 0⟩],
        duplicatesRemoved := st.duplicatesRemoved + 1 }, true)
  else ({ st with seen := normalized :: st.seen }, false)

/-- `entryProcessor.isDeadPath`. -/
def isDeadPath (opts : OptimizeOptions) (fs : Str → Bool) (st : ProcState)
    (entry : Str) : ProcState × Bool :=
  if !opts.RemoveDeadPaths then (st, false)
  else if entry.contains '%' then (st, false)
  else if PathExists fs entry then (st, false)
  else
    ({ st with
        changes := st.changes ++ [⟨chgDead, entry, [], 0⟩],
        deadPathsRemoved := st.deadPathsRemoved + 1 }, true)

/-- `entryProcessor.tryShorten`. -/
def tryShorten (opts : OptimizeOptions) (toShort : Str → Str × Bool)
    (st : ProcState) (current : Str) : ProcState × Str :=
  if !opts.ShortenPaths || current.contains '%' then (st, current)
  else
    let r := toShort current
    if !r.2 || current.length ≤ r.1.length then (st, current)
    else
      let saved : Int := (current.length : Int) - (r.1.length : Int)
      ({ st with
          changes := st.changes ++ [⟨chgShortened, current, r.1, saved⟩],
          pathsShortened := st.pathsShortened + 1,
          totalSaved := st.totalSaved + saved }, r.1)

/-- `entryProcessor.trySubstituteVars`. -/
def trySubstituteVars (opts : OptimizeOptions) (env : EnvMap) (st : ProcState)
    (current : Str) : ProcState × Str :=
  if !opts.SubstituteVars || current.contains '%' then (st, current)
  else
    let r := SubstituteEnvVars env current
    if !r.2 || current.length ≤ r.1.length then (st, current)
    else
      let saved : Int := (current.length : Int) - (r.1.length : Int)
      ({ st with
          changes := st.changes ++ [⟨chgVariable, current, r.1, saved⟩],
          varsSubstituted := st.varsSubstituted + 1,
          totalSaved := st.totalSaved + saved }, r.1)

/-- `entryProcessor.tryShortenSuffix`. -/
def tryShortenSuffix (opts : OptimizeOptions) (shortenSfx : Str → Str × Bool)
    (st : ProcState) (current : Str) : ProcState × Str :=
  if !opts.ShortenPaths then (st, current)
  else
    let r := shortenSfx current
    if !r.2 || current.length ≤ r.1.length then (st, current)
    else
      let saved : Int := (current.length : Int) - (r.1.length : Int)
      ({ st with
          changes := st.changes ++ [⟨chgShortened, current, r.1, saved⟩],
          pathsShortened := st.pathsShortened + 1,
          totalSaved := st.totalSaved + saved }, r.1)

/-- `entryProcessor.processEntry`: `none` when the entry is dropped. -/
def processEntry (opts : OptimizeOptions) (O : Oracles) (st : ProcState)
    (entry : Str) : ProcState × Option Str :=
  let normalized := NormalizePath entry
  let d := isDuplicate opts st entry normalized
  if d.2 then (d.1, none)
  else
    let dd := isDeadPath opts O.fs d.1 entry
    if dd.2 then (dd.1, none)
    else
      let s1 := tryShorten opts O.toShort dd.1 entry
      let s2 := trySubstituteVars opts O.env s1.1 s1.2
      if s2.2 ≠ s1.2 then
        let s3 := tryShortenSuffix opts O.shortenSfx s2.1 s2.2
        (s3.1, some s3.2)
      else (s2.1, some s2.2)

/-- The entry-processing fold of `OptimizeWithProgress` (part_003). -/
def processAll (opts : OptimizeOptions) (O : Oracles) (entries : List Str) :
    ProcState × List Str :=
  entries.foldl
    (fun acc entry =>
      let r := processEntry opts O acc.1 entry
      match r.2 with
      | some processed => (r.1, acc.2 ++ [processed])
      | none => (r.1, acc.2))
    (initState, [])

/-- `OptimizeWithProgress` (part_003).  The progress callback only reports to
the UI and does not influence the result, so it is not modelled; `config`
stands for `LoadConfig()`. -/
def OptimizeWithProgress (pathStr : Str) (opts : OptimizeOptions) (O : Oracles)
    (config : Config) : OptimizeResult :=
  let entries := ParsePath pathStr
  let pr := processAll opts O entries
  let optimized := if config.HotPaths ≠ [] then applyHotPaths pr.2 config.HotPaths else pr.2
  let optimizedRaw := JoinPath optimized
  { Original := ⟨pathStr, entries, pathStr.length, entries.length⟩
    Optimized := ⟨optimizedRaw, optimized, optimizedRaw.length, optimized.length⟩
    Changes := pr.1.changes
    Metrics :=
      ⟨pr.1.duplicatesRemoved, pr.1.deadPathsRemoved, pr.1.pathsShortened,
       pr.1.varsSubstituted, pr.1.totalSaved,
       if 0 < pathStr.length then
         ((pathStr.length : ℚ) - (optimizedRaw.length : ℚ)) / (pathStr.length : ℚ) * 100
       else 0⟩ }

/-- `Optimize` (part_003). -/
def Optimize (pathStr : Str) (opts : OptimizeOptions) (O : Oracles)
    (config : Config) : OptimizeResult :=
  OptimizeWithProgress pathStr opts O config

end Proc

namespace Inline

/-! The part_002 version: one loop body doing all checks inline. -/

/-- The 8.3-shortening phase of the inline loop body (part_002), transcribed
from the `opts.ShortenPaths && !strings.Contains(entry, "%")` block. -/
def shortenPhase (opts : OptimizeOptions) (toShort : Str → Str × Bool)
    (st : ProcState) (entry : Str) : ProcState × Str :=
  if opts.ShortenPaths && !entry.contains '%' then
    let r := toShort entry
    if r.2 && decide (r.1.length < entry.length) then
      let saved : Int := (entry.length : Int) - (r.1.length : Int)
      ({ st with
          changes := st.changes ++ [⟨chgShortened, entry, r.1, saved⟩],
          pathsShortened := st.pathsShortened + 1,
          totalSaved := st.totalSaved + saved }, r.1)
    else (st, entry)
  else (st, entry)

/-- The variable-substitution phase of the inline loop body (part_002),
including the suffix-shortening retry nested inside its accepted branch. -/
def substPhase (opts : OptimizeOptions) (env : EnvMap) (shortenSfx : Str → Str × Bool)
    (st : ProcState) (current : Str) : ProcState × Str :=
  if opts.SubstituteVars && !current.contains '%' then
    let r := SubstituteEnvVars env current
    if r.2 && decide (r.1.length < current.length) then
      let saved : Int := (current.length : Int) - (r.1.length : Int)
      let stv := { st with
          changes := st.changes ++ [⟨chgVariable, current, r.1, saved⟩],
          varsSubstituted := st.varsSubstituted + 1,
          totalSaved := st.totalSaved + saved }
      if opts.ShortenPaths then
        let r2 := shortenSfx r.1
        if r2.2 && decide (r2.1.length < r.1.length) then
          let saved2 : Int := (r.1.length : Int) - (r2.1.length : Int)
          ({ stv with
              changes := stv.changes ++ [⟨chgShortened, r.1, r2.1, saved2⟩],
              pathsShortened := stv.pathsShortened + 1,
              totalSaved := stv.totalSaved + saved2 }, r2.1)
        else (stv, r.1)
      else (stv, r.1)
    else (st, current)
  else (st, current)

/-- The loop body of the inline `OptimizeWithProgress` (part_002), transcribed
check by check (the two named phases above are its two trailing blocks). -/
def step (opts : OptimizeOptions) (O : Oracles)
    (acc : ProcState × List Str) (entry : Str) : ProcState × List Str :=
  let st := acc.1
  let normalized := NormalizePath entry
  if opts.RemoveDuplicates && st.seen.contains normalized then
    ({ st with
        changes := st.changes ++ [⟨chgDuplicate, entry, [], 0⟩],
        duplicatesRemoved := st.duplicatesRemoved + 1 }, acc.2)
  else
    let st := { st with seen := normalized :: st.seen }
    if opts.RemoveDeadPaths && !entry.contains '%' && !PathExists O.fs entry then
      ({ st with
          changes := st.changes ++ [⟨chgDead, entry, [], 0⟩],
          deadPathsRemoved := st.deadPathsRemoved + 1 }, acc.2)
    else
      let s1 := shortenPhase opts O.toShort st entry
      let s2 := substPhase opts O.env O.shortenSfx s1.1 s1.2
      (s2.1, acc.2 ++ [s2.2])

/-- `OptimizeWithProgress` (part_002), the inline version. -/
def OptimizeWithProgress (pathStr : Str) (opts : OptimizeOptions) (O : Oracles)
    (config : Config) : OptimizeResult :=
  let entries := ParsePath pathStr
  let pr := entries.foldl (step opts O) (initState, [])
  let optimized := if config.HotPaths ≠ [] then applyHotPaths pr.2 config.HotPaths else pr.2
  let optimizedRaw := JoinPath optimized
  { Original := ⟨pathStr, entries, pathStr.length, entries.length⟩
    Optimized := ⟨optimizedRaw, optimized, optimizedRaw.length, optimized.length⟩
    Changes := pr.1.changes
    Metrics :=
      ⟨pr.1.duplicatesRemoved, pr.1.deadPathsRemoved, pr.1.pathsShortened,
       pr.1.varsSubstituted, pr.1.totalSaved,
       if 0 < pathStr.length then
         ((pathStr.length : ℚ) - (optimizedRaw.length : ℚ)) / (pathStr.length : ℚ) * 100
       else 0⟩ }

end Inline

/-! ## Claim C8: OptimizePathExt -/

/-- The template-walk filter of `OptimizePathExt`: keep an optimal-order
extension iff it is present in the current list and passes the rarely-used
filter. -/
def phase1P (current : List Str) (keepAll : Bool) (ext : Str) : Bool :=
  current.contains ext && (keepAll || !(RemovableExtensions.contains ext))

theorem phase1Step_eq (current : List Str) (keepAll : Bool)
    (acc : List Str × List Str) (ext : Str) :
    phase1Step current keepAll acc ext =
      if phase1P current keepAll ext then (acc.1 ++ [ext], acc.2 ++ [ext]) else acc := by
  unfold phase1Step phase1P
  rcases h1 : current.contains ext with _ | _ <;>
    rcases h2 : (keepAll || !(RemovableExtensions.contains ext)) with _ | _ <;>
      simp [h1, h2]

theorem optPhase1_foldl (current : List Str) (keepAll : Bool) (l : List Str)
    (a b : List Str) :
    l.foldl (phase1Step current keepAll) (a, b)
      = (a ++ l.filter (phase1P current keepAll), b ++ l.filter (phase1P current keepAll)) := by
  induction l generalizing a b with
  | nil => simp
  | cons x xs ih =>
    simp only [List.foldl_cons, List.filter_cons, phase1Step_eq]
    rcases hp : phase1P current keepAll x with _ | _ <;> simp [hp, ih]

theorem optPhase1_eq (current : List Str) (keepAll : Bool) :
    optPhase1 current keepAll =
      (OptimalOrder.filter (phase1P current keepAll),
       OptimalOrder.filter (phase1P current keepAll)) := by
  have := optPhase1_foldl current keepAll OptimalOrder [] []
  simpa [optPhase1] using this

theorem phase2Step_eq (added : List Str) (keepAll : Bool) (acc : List Str) (ext : Str) :
    phase2Step added keepAll acc ext =
      if !(added.contains ext) && (keepAll || !(RemovableExtensions.contains ext))
      then acc ++ [ext] else acc := by
  unfold phase2Step
  rcases h1 : added.contains ext with _ | _ <;>
    rcases h2 : (keepAll || !(RemovableExtensions.contains ext)) with _ | _ <;>
      simp [h1, h2]

theorem optPhase2_foldl (added : List Str) (keepAll : Bool) (l : List Str)
    (a : List Str) :
    l.foldl (phase2Step added keepAll) a
      = a ++ l.filter (fun ext =>
          !(added.contains ext) && (keepAll || !(RemovableExtensions.contains ext))) := by
  induction l generalizing a with
  | nil => simp
  | cons x xs ih =>
    simp only [List.foldl_cons, List.filter_cons, phase2Step_eq]
    rcases hp : (!(added.contains x) && (keepAll || !(RemovableExtensions.contains x)))
      with _ | _ <;> simp [hp, ih]

theorem optPhase2_eq (current added : List Str) (keepAll : Bool) :
    optPhase2 current added keepAll =
      current.filter (fun ext =>
        !(added.contains ext) && (keepAll || !(RemovableExtensions.contains ext))) := by
  have := optPhase2_foldl added keepAll current []
  simpa [optPhase2] using this

/-- C8.  `OptimizePathExt` walks the fixed optimal-order template keeping only
extensions present in the current list (filtering rarely-used ones unless
`keepAll`), then appends the remaining current extensions under the same
filter, and `Changed` is string inequality of the joined forms; on the current
list `[.CMD, .EXE, .BAT]` with `keepAll = true` the optimized list starts with
`.EXE` and `Changed` is `true`. -/
theorem optimizePathExt_spec_C8 :
    (∀ (current : List Str) (keepAll : Bool),
      (OptimizePathExt current keepAll).Optimized =
        OptimalOrder.filter (phase1P current keepAll) ++
          current.filter (fun ext =>
            !((OptimalOrder.filter (phase1P current keepAll)).contains ext) &&
              (keepAll || !(RemovableExtensions.contains ext))) ∧
      (OptimizePathExt current keepAll).Changed =
        (goJoin ';' current != goJoin ';' ((OptimizePathExt current keepAll).Optimized))) ∧
    (OptimizePathExt ([".CMD", ".EXE", ".BAT"].map String.toList) true).Optimized.head? =
      some ".EXE".toList ∧
    (OptimizePathExt ([".CMD", ".EXE", ".BAT"].map String.toList) true).Changed = true := by
  refine ⟨fun current keepAll => ?_, by decide, by decide⟩
  constructor
  · show (optPhase1 current keepAll).1 ++
        optPhase2 current (optPhase1 current keepAll).2 keepAll = _
    rw [optPhase1_eq, optPhase2_eq]
  · rfl

/-! ## Claim C2: RestoreBackup -/

/-- A backup whose stored user PATH is empty (and system PATH is not). -/
def bkNoUser : Backup :=
  ⟨[], [], "manual".toList, ⟨"C:\\S".toList, ["C:\\S".toList]⟩, ⟨[], []⟩⟩

/-- C2 counterexample: on a backup that loads successfully but whose stored
user PATH is the empty string, `RestoreBackup` performs no `SetPath` call for
the `User` scope at all — the user PATH is not written back unconditionally. -/
theorem restoreBackup_skips_empty_user_C2 :
    RestoreBackup (Except.ok bkNoUser) (fun _ _ => none) true
        = ([("C:\\S".toList, scopeSystem)], none) ∧
      scopeUser ∉ (RestoreBackup (Except.ok bkNoUser) (fun _ _ => none) true).1.map Prod.snd := by
  refine ⟨rfl, by decide⟩

/-- C2 amended: for every backup that loads successfully, `RestoreBackup`
writes the user PATH iff the stored user raw string is non-empty, writes the
system PATH iff `isAdmin` holds, the stored system raw string is non-empty and
the user write did not fail first, and returns no error iff every attempted
write succeeded (a user write that succeeded stays performed even when the
system write then fails — there is no rollback). -/
theorem restoreBackup_writes_C2 (bk : Backup) (setPath : Str → Str → Option Str)
    (isAdmin : Bool) :
    ((bk.UserPath.Raw, scopeUser) ∈ (RestoreBackup (Except.ok bk) setPath isAdmin).1 ↔
        bk.UserPath.Raw ≠ []) ∧
    ((bk.SystemPath.Raw, scopeSystem) ∈ (RestoreBackup (Except.ok bk) setPath isAdmin).1 ↔
        (isAdmin = true ∧ bk.SystemPath.Raw ≠ [] ∧
          (bk.UserPath.Raw = [] ∨ setPath bk.UserPath.Raw scopeUser = none))) ∧
    ((RestoreBackup (Except.ok bk) setPath isAdmin).2 = none ↔
        ∀ w ∈ (RestoreBackup (Except.ok bk) setPath isAdmin).1, setPath w.1 w.2 = none) := by
  have hsc : scopeUser ≠ scopeSystem := by decide
  by_cases hu : bk.UserPath.Raw = []
  · by_cases ha : isAdmin = true ∧ bk.SystemPath.Raw ≠ []
    · rcases hs : setPath bk.SystemPath.Raw scopeSystem with _ | e
      · have hR : RestoreBackup (Except.ok bk) setPath isAdmin
            = ([(bk.SystemPath.Raw, scopeSystem)], none) := by
          simp only [RestoreBackup]
          rw [if_neg (not_not_intro hu), if_pos ha, hs]
        rw [hR]
        refine ⟨?_, by simp [ha, hu], ?_⟩
        · simp only [List.mem_singleton, Prod.mk.injEq, hu]
          constructor
          · rintro ⟨-, h2⟩; exact absurd h2.symm (fun h => hsc h.symm)
          · intro h; exact absurd rfl h
        · simp [hs]
      · have hR : RestoreBackup (Except.ok bk) setPath isAdmin
            = ([(bk.SystemPath.Raw, scopeSystem)], some (.systemFailed e)) := by
          simp only [RestoreBackup]
          rw [if_neg (not_not_intro hu), if_pos ha, hs]
        rw [hR]
        refine ⟨?_, by simp [ha, hu], ?_⟩
        · simp only [List.mem_singleton, Prod.mk.injEq, hu]
          constructor
          · rintro ⟨-, h2⟩; exact absurd h2.symm (fun h => hsc h.symm)
          · intro h; exact absurd rfl h
        · constructor
          · intro h; cases h
          · intro h
            have := h (bk.SystemPath.Raw, scopeSystem) (by simp)
            simp [hs] at this
    · have hR : RestoreBackup (Except.ok bk) setPath isAdmin = ([], none) := by
        simp only [RestoreBackup]
        rw [if_neg (not_not_intro hu), if_neg ha]
      rw [hR]
      exact ⟨by simp [hu], by simpa using fun h1 h2 => absurd ⟨h1, h2⟩ ha, by simp⟩
  · rcases hus : setPath bk.UserPath.Raw scopeUser with _ | e
    · by_cases ha : isAdmin = true ∧ bk.SystemPath.Raw ≠ []
      · rcases hs : setPath bk.SystemPath.Raw scopeSystem with _ | e2
        · have hR : RestoreBackup (Except.ok bk) setPath isAdmin
              = ([(bk.UserPath.Raw, scopeUser), (bk.SystemPath.Raw, scopeSystem)], none) := by
            simp only [RestoreBackup]
            rw [if_pos hu, hus, if_pos ha, hs]
          rw [hR]
          refine ⟨by simp [hu], by simp [ha, hus], ?_⟩
          constructor
          · intro _ w hw
            simp only [List.mem_cons, List.mem_singleton, List.not_mem_nil, or_false] at hw
            rcases hw with rfl | rfl <;> simp [hus, hs]
          · intro _; rfl
        · have hR : RestoreBackup (Except.ok bk) setPath isAdmin
              = ([(bk.UserPath.Raw, scopeUser), (bk.SystemPath.Raw, scopeSystem)],
                 some (.systemFailed e2)) := by
            simp only [RestoreBackup]
            rw [if_pos hu, hus, if_pos ha, hs]
          rw [hR]
          refine ⟨by simp [hu], by simp [ha, hus], ?_⟩
          constructor
          · intro h; cases h
          · intro h
            have := h (bk.SystemPath.Raw, scopeSystem) (by simp)
            simp [hs] at this
      · have hR : RestoreBackup (Except.ok bk) setPath isAdmin
            = ([(bk.UserPath.Raw, scopeUser)], none) := by
          simp only [RestoreBackup]
          rw [if_pos hu, hus, if_neg ha]
        rw [hR]
        refine ⟨by simp [hu], ?_, by simp [hus]⟩
        simp only [List.mem_singleton, Prod.mk.injEq]
        constructor
        · rintro ⟨-, h2⟩; exact absurd h2.symm hsc
        · rintro ⟨h1, h2, -⟩; exact absurd ⟨h1, h2⟩ ha
    · have hR : RestoreBackup (Except.ok bk) setPath isAdmin
          = ([(bk.UserPath.Raw, scopeUser)], some (.userFailed e)) := by
        simp only [RestoreBackup]
        rw [if_pos hu, hus]
      rw [hR]
      refine ⟨by simp [hu], ?_, ?_⟩
      · simp only [List.mem_singleton, Prod.mk.injEq]
        constructor
        · rintro ⟨-, h2⟩; exact absurd h2.symm hsc
        · rintro ⟨-, -, h3 | h3⟩
          · exact absurd h3 hu
          · simp [hus] at h3
      · constructor
        · intro h; cases h
        · intro h
          have := h (bk.UserPath.Raw, scopeUser) (by simp)
          simp [hus] at this

/-! ## Claim C6: termination of the ExpandEnvVars loop -/

/-- An environment binding `A` to the very token `%A%`: replacing the token
reproduces the input string verbatim. -/
def envLoopC6 : EnvMap := [("A".toList, "%A%".toList)]

/-- C6 counterexample: on the environment mapping `A` to `%A%` and the input
`%A%`, each iteration of the replacement loop rewrites the string to itself,
so no iteration budget ever reaches a return: the loop does not terminate. -/
theorem expandLoop_diverges_C6 : ¬ ExpandTerminates envLoopC6 ("%A%".toList) := by
  rintro ⟨fuel, h⟩
  suffices hall : ∀ n, expandLoop envLoopC6 n ("%A%".toList) = none by
    rw [hall fuel] at h
    cases h
  intro n
  induction n with
  | zero => rfl
  | succ m ih =>
    have hstep : expandLoop envLoopC6 (m + 1) ("%A%".toList)
        = expandLoop envLoopC6 m ("%A%".toList) := rfl
    rw [hstep, ih]

/-- If the first index satisfying `p` is `i`, then the list splits as a clean
prefix, the witness, and the tail. -/
theorem findIdx?_split (p : Char → Bool) (r : Str) (i : Nat)
    (h : r.findIdx? p = some i) :
    (∀ c ∈ r.take i, p c = false) ∧
      ∃ c, p c = true ∧ r.drop i = c :: r.drop (i + 1) := by
  obtain ⟨hlen, hp, hprev⟩ := List.findIdx?_eq_some_iff_getElem.mp h
  refine ⟨?_, r[i], hp, List.drop_eq_getElem_cons hlen⟩
  intro c hc
  obtain ⟨j, hj, rfl⟩ := List.mem_iff_getElem.mp hc
  have hj2 : j < i := lt_of_lt_of_le hj (by simp [List.length_take])
  have := hprev j hj2
  rw [List.getElem_take]
  exact Bool.of_not_eq_true this

/-- The value substituted for a variable contains no `%` when no environment
value does. -/
theorem expandValue_count (env : EnvMap) (hv : ∀ p ∈ env, p.2.count '%' = 0)
    (name : Str) :
    (match envLookup env name with
      | some v => v
      | none => getenv env name).count '%' = 0 := by
  cases hl : envLookup env name with
  | some v =>
    obtain ⟨q, hq, hq2⟩ : ∃ q ∈ env, q.2 = v := by
      unfold envLookup at hl
      cases hf : env.find? (fun p => p.1 == name) with
      | none => rw [hf] at hl; cases hl
      | some q =>
        rw [hf] at hl
        exact ⟨q, List.mem_of_find?_eq_some hf, by simpa using hl⟩
    simpa [hq2] using hv q hq
  | none => simp [getenv, hl]

/-- One replacing iteration of the loop removes exactly the two `%` of the
consumed token when the substituted value is `%`-free. -/
theorem expandLoop_succ_isSome (env : EnvMap) (hv : ∀ p ∈ env, p.2.count '%' = 0) :
    ∀ (n : Nat) (r : Str), r.count '%' ≤ n → (expandLoop env (n + 1) r).isSome = true := by
  intro n
  induction n with
  | zero =>
    intro r hr
    unfold expandLoop
    cases hf : r.findIdx? (fun c => c == '%') with
    | none => simp
    | some i =>
      exfalso
      obtain ⟨-, c, hc, hdrop⟩ := findIdx?_split _ r i hf
      have hc2 : c = '%' := by simpa using hc
      have : 0 < r.count '%' := by
        rw [List.count_pos_iff]
        have : c ∈ r.drop i := by rw [hdrop]; exact List.mem_cons_self c _
        exact hc2 ▸ List.mem_of_mem_drop this
      omega
  | succ m ih =>
    intro r hr
    unfold expandLoop
    cases hf : r.findIdx? (fun c => c == '%') with
    | none => simp
    | some start =>
      simp only []
      cases hf2 : (r.drop (start + 1)).findIdx? (fun c => c == '%') with
      | none => simp
      | some e0 =>
        simp only []
        set varName := (r.drop (start + 1)).take e0 with hvn
        set value : Str := (match envLookup env varName with
          | some v => v
          | none => getenv env varName) with hval
        by_cases hve : value = []
        · rw [if_neg (by simpa using hve)]
          simp
        · rw [if_pos (by simpa using hve)]
          apply ih
          -- count accounting
          obtain ⟨hpre1, c1, hc1, hdrop1⟩ := findIdx?_split _ r start hf
          obtain ⟨hpre2, c2, hc2, hdrop2⟩ := findIdx?_split _ (r.drop (start + 1)) e0 hf2
          have hc1e : c1 = '%' := by simpa using hc1
          have hc2e : c2 = '%' := by simpa using hc2
          have hr1 : r = r.take start ++ r.drop start := (List.take_append_drop _ _).symm
          have hcount1 : (r.take start).count '%' = 0 := by
            rw [List.count_eq_zero]
            intro hmem
            have := hpre1 '%' hmem
            simp at this
          have hcount2 : varName.count '%' = 0 := by
            rw [List.count_eq_zero]
            intro hmem
            have := hpre2 '%' hmem
            simp at this
          have hdd : (r.drop (start + 1)).drop (e0 + 1) = r.drop (e0 + start + 1 + 1) := by
            rw [List.drop_drop]
            congr 1
            omega
          have hrc : r.count '%' = 2 + (r.drop (e0 + start + 1 + 1)).count '%' := by
            conv_lhs => rw [hr1]
            rw [List.count_append, hcount1, hdrop1, hc1e]
            have hr2 : r.drop (start + 1)
                = varName ++ (r.drop (start + 1)).drop e0 := by
              rw [hvn]; exact (List.take_append_drop _ _).symm
            rw [List.count_cons_self, hr2, List.count_append, hcount2, hdrop2, hc2e,
              List.count_cons_self, hdd]
            omega
          have hvc : value.count '%' = 0 := hval ▸ expandValue_count env hv varName
          rw [List.count_append, List.count_append, hcount1, hvc]
          omega

/-- C6 amended: the replacement loop of `ExpandEnvVars` terminates whenever no
environment value contains a `%` (in particular stopping, without consuming the
token, at any undefined or empty variable); with a self-referential environment
value the loop can run forever (see the counterexample). -/
theorem expandEnvVars_terminates_C6 (env : EnvMap) (path : Str)
    (hv : ∀ p ∈ env, p.2.count '%' = 0) :
    ExpandTerminates env path ∧ (ExpandEnvVars env (path.count '%' + 1) path).isSome = true := by
  have hloop := expandLoop_succ_isSome env hv (path.count '%') path le_rfl
  refine ⟨⟨path.count '%' + 1, hloop⟩, ?_⟩
  unfold ExpandEnvVars
  by_cases hg : path = [] ∨ ¬ path.contains '%'
  · rw [if_pos hg]; rfl
  · rw [if_neg hg]; exact hloop

/-- Concrete witness environment for C6: one ordinary `%`-free binding. -/
def envW6 : EnvMap := [("X".toList, "abc".toList)]

/-- Witness for the amended C6 at a concrete environment and path. -/
theorem expandEnvVars_terminates_C6_witness :
    (∀ p ∈ envW6, p.2.count '%' = 0) ∧ ExpandTerminates envW6 ("%X%\\d".toList) :=
  ⟨by decide, (expandEnvVars_terminates_C6 envW6 ("%X%\\d".toList) (by decide)).1⟩

/-! ## Claims C1 and C4: SubstituteEnvVars -/

/-- The candidate a priority variable contributes in `SubstituteEnvVars`:
`some (remaining, saved)` when the variable is set, non-empty, its value is a
case-insensitive prefix of the (8.3-expanded) path `np` at a path boundary;
`saved` is the character saving of the substitution against the original
`path`. -/
def substCand (env : EnvMap) (path np : Str) (v : Str) : Option (Str × Int) :=
  match envLookup env v with
  | none => none
  | some value =>
    if value = [] then none
    else if (strLower value).isPrefixOf (strLower np) then
      if np.drop value.length = [] ∨ (np.drop value.length).getD 0 ' ' = '\\' ∨
          (np.drop value.length).getD 0 ' ' = '/' then
        some (np.drop value.length,
          (path.length : Int) - ((('%' :: v ++ '%' :: np.drop value.length)).length : Int))
      else none
    else none

theorem substStep_cand (env : EnvMap) (path np : Str) (best : BestMatch) (v : Str) :
    substStep env path np (strLower np) best v =
      match substCand env path np v with
      | some rs => if best.saved < rs.2 then ⟨v, rs.1, rs.2⟩ else best
      | none => best := by
  unfold substStep substCand
  cases envLookup env v with
  | none => rfl
  | some value =>
    dsimp only []
    by_cases h1 : value = []
    · simp [h1]
    · rw [if_neg h1, if_neg h1]
      by_cases h2 : (strLower value).isPrefixOf (strLower np) = true
      · rw [if_pos h2, if_pos h2]
        by_cases h3 : np.drop value.length = [] ∨ (np.drop value.length).getD 0 ' ' = '\\' ∨
            (np.drop value.length).getD 0 ' ' = '/'
        · rw [if_pos h3, if_pos h3]
        · rw [if_neg h3, if_neg h3]
      · rw [if_neg h2, if_neg h2]

/-- Invariant of the candidate loop after processing the prefix `l` of the
priority list: either no candidate so far saves anything and the best is still
the zero initial value, or the best is the earliest maximal-savings candidate
seen so far. -/
def GoodBest (env : EnvMap) (path np : Str) (l : List Str) (b : BestMatch) : Prop :=
  (b = ⟨[], [], 0⟩ ∧ ∀ v ∈ l, ∀ rs, substCand env path np v = some rs → rs.2 ≤ 0)
  ∨ (∃ i v, l.get? i = some v ∧ b.varName = v ∧
      substCand env path np v = some (b.remaining, b.saved) ∧ 0 < b.saved ∧
      (∀ w ∈ l, ∀ rs, substCand env path np w = some rs → rs.2 ≤ b.saved) ∧
      (∀ j w, j < i → l.get? j = some w → ∀ rs,
        substCand env path np w = some rs → rs.2 < b.saved))

theorem goodBest_step (env : EnvMap) (path np : Str) (l : List Str) (b : BestMatch)
    (v : Str) (h : GoodBest env path np l b) :
    GoodBest env path np (l ++ [v]) (substStep env path np (strLower np) b v) := by
  rw [substStep_cand]
  have hsavednn : 0 ≤ b.saved := by
    rcases h with ⟨rfl, -⟩ | ⟨-, -, -, -, -, hpos, -, -⟩
    · exact le_refl 0
    · exact le_of_lt hpos
  cases hc : substCand env path np v with
  | none =>
    dsimp only []
    rcases h with ⟨hb, hall⟩ | ⟨i, w, hget, hbv, hcand, hpos, hmax, hstrict⟩
    · refine Or.inl ⟨hb, ?_⟩
      intro u hu rs hrs
      rcases List.mem_append.mp hu with hu | hu
      · exact hall u hu rs hrs
      · rw [List.mem_singleton.mp hu] at hrs
        rw [hrs] at hc
        cases hc
    · refine Or.inr ⟨i, w, ?_, hbv, hcand, hpos, ?_, ?_⟩
      · rw [List.get?_append (by exact (List.get?_eq_some.mp hget).1)]
        exact hget
      · intro u hu rs hrs
        rcases List.mem_append.mp hu with hu | hu
        · exact hmax u hu rs hrs
        · rw [List.mem_singleton.mp hu] at hrs
          rw [hrs] at hc
          cases hc
      · intro j u hj hgj rs hrs
        have hi : i < l.length := (List.get?_eq_some.mp hget).1
        rw [List.get?_append (lt_trans hj hi)] at hgj
        exact hstrict j u hj hgj rs hrs
  | some rs =>
    dsimp only []
    by_cases hlt : b.saved < rs.2
    · rw [if_pos hlt]
      refine Or.inr ⟨l.length, v, ?_, rfl, hc, lt_of_le_of_lt hsavednn hlt, ?_, ?_⟩
      · rw [List.get?_append_right (le_refl _)]
        simp
      · intro u hu rs2 hrs2
        rcases List.mem_append.mp hu with hu | hu
        · have : rs2.2 ≤ b.saved := by
            rcases h with ⟨-, hall⟩ | ⟨-, -, -, -, -, -, hmax, -⟩
            · exact le_trans (hall u hu rs2 hrs2) hsavednn
            · exact hmax u hu rs2 hrs2
          exact le_of_lt (lt_of_le_of_lt this hlt)
        · rw [List.mem_singleton.mp hu] at hrs2
          rw [hrs2] at hc
          cases hc
          exact le_refl _
      · intro j u hj hgj rs2 hrs2
        rw [List.get?_append hj] at hgj
        have hu : u ∈ l := List.get?_mem hgj
        have : rs2.2 ≤ b.saved := by
          rcases h with ⟨-, hall⟩ | ⟨-, -, -, -, -, -, hmax, -⟩
          · exact le_trans (hall u hu rs2 hrs2) hsavednn
          · exact hmax u hu rs2 hrs2
        exact lt_of_le_of_lt this hlt
    · rw [if_neg hlt]
      rcases h with ⟨hb, hall⟩ | ⟨i, w, hget, hbv, hcand, hpos, hmax, hstrict⟩
      · refine Or.inl ⟨hb, ?_⟩
        intro u hu rs2 hrs2
        rcases List.mem_append.mp hu with hu | hu
        · exact hall u hu rs2 hrs2
        · rw [List.mem_singleton.mp hu] at hrs2
          rw [hrs2] at hc
          cases hc
          have : b.saved = 0 := by rw [hb]
          omega
      · refine Or.inr ⟨i, w, ?_, hbv, hcand, hpos, ?_, ?_⟩
        · rw [List.get?_append (by exact (List.get?_eq_some.mp hget).1)]
          exact hget
        · intro u hu rs2 hrs2
          rcases List.mem_append.mp hu with hu | hu
          · exact hmax u hu rs2 hrs2
          · rw [List.mem_singleton.mp hu] at hrs2
            rw [hrs2] at hc
            cases hc
            omega
        · intro j u hj hgj rs2 hrs2
          have hi : i < l.length := (List.get?_eq_some.mp hget).1
          rw [List.get?_append (lt_trans hj hi)] at hgj
          exact hstrict j u hj hgj rs2 hrs2

theorem goodBest_foldl (env : EnvMap) (path np : Str) (l : List Str) :
    GoodBest env path np l (l.foldl (substStep env path np (strLower np)) ⟨[], [], 0⟩) := by
  induction l using List.reverseRecOn with
  | nil => exact Or.inl ⟨rfl, by simp⟩
  | append_singleton l v ih =>
    rw [List.foldl_append]
    exact goodBest_step env path np l _ v ih

/-- C1.  On a literal path (no `%`), `SubstituteEnvVars` returns exactly the
priority-list candidate with the maximum character savings, tie-broken by the
earliest priority position (strictly better savings are required to displace
the running best), and returns the input unchanged with `changed = false` when
no candidate saves at least one character.  Candidates are prefixes, at a path
boundary, of the 8.3-expanded path `expandShortUserPath env path` (which is
`path` itself whenever no short user-profile segment is present). -/
theorem substituteEnvVars_best_C1 (env : EnvMap) (path : Str)
    (hp : path.contains '%' = false) :
    (∀ out, SubstituteEnvVars env path = (out, true) →
      ∃ i v, SubstitutionPriority.get? i = some v ∧
        ∃ rem s, substCand env path (expandShortUserPath env path) v = some (rem, s) ∧
          out = '%' :: v ++ '%' :: rem ∧ 1 ≤ s ∧
          (∀ w ∈ SubstitutionPriority, ∀ rs,
            substCand env path (expandShortUserPath env path) w = some rs → rs.2 ≤ s) ∧
          (∀ j w, j < i → SubstitutionPriority.get? j = some w → ∀ rs,
            substCand env path (expandShortUserPath env path) w = some rs → rs.2 < s)) ∧
    ((∀ w ∈ SubstitutionPriority, ∀ rs,
        substCand env path (expandShortUserPath env path) w = some rs → rs.2 ≤ 0) →
      SubstituteEnvVars env path = (path, false)) := by
  by_cases hnil : path = []
  · constructor
    · intro out hout
      rw [hnil] at hout
      unfold SubstituteEnvVars at hout
      simp at hout
    · intro _
      rw [hnil]
      rfl
  · have hguard : ¬ (path = [] ∨ path.contains '%' = true) := by
      rintro (h | h)
      · exact hnil h
      · rw [hp] at h; cases h
    have hgb := goodBest_foldl env path (expandShortUserPath env path) SubstitutionPriority
    constructor
    · intro out hout
      unfold SubstituteEnvVars at hout
      rw [if_neg hguard] at hout
      set b := SubstitutionPriority.foldl
        (substStep env path (expandShortUserPath env path)
          (strLower (expandShortUserPath env path))) ⟨[], [], 0⟩ with hbdef
      by_cases hcond : b.varName ≠ [] ∧ 0 < b.saved
      · rw [if_pos hcond] at hout
        have hout1 : out = '%' :: b.varName ++ '%' :: b.remaining :=
          (congrArg Prod.fst hout).symm
        rcases hgb with ⟨hb0, -⟩ | ⟨i, v, hget, hbv, hcand, hpos, hmax, hstrict⟩
        · rw [hb0] at hcond
          exact absurd rfl hcond.1
        · refine ⟨i, v, hget, b.remaining, b.saved, hcand, ?_, by omega, hmax, hstrict⟩
          rw [hout1, hbv]
      · rw [if_neg hcond] at hout
        cases hout
    · intro hall
      unfold SubstituteEnvVars
      rw [if_neg hguard]
      set b := SubstitutionPriority.foldl
        (substStep env path (expandShortUserPath env path)
          (strLower (expandShortUserPath env path))) ⟨[], [], 0⟩ with hbdef
      by_cases hcond : b.varName ≠ [] ∧ 0 < b.saved
      · exfalso
        rcases hgb with ⟨hb0, -⟩ | ⟨i, v, hget, hbv, hcand, hpos, -, -⟩
        · rw [hb0] at hcond
          exact absurd rfl hcond.1
        · have := hall v (List.get?_mem hget) _ hcand
          simp only [] at this
          omega
      · rw [if_neg hcond]

/-- Concrete environment for the C1 witness. -/
def envC1 : EnvMap :=
  [("LOCALAPPDATA".toList, "C:\\Users\\ab\\AppData\\Local".toList),
   ("USERPROFILE".toList, "C:\\Users\\ab".toList)]

/-- Concrete path for the C1 witness. -/
def pathC1 : Str := "C:\\Users\\ab\\AppData\\Local\\P".toList

/-- Witness for C1: at a concrete environment and path the best-saving
candidate (`LOCALAPPDATA`, not the shorter-saving `USERPROFILE`) is chosen. -/
theorem substituteEnvVars_best_C1_witness :
    pathC1.contains '%' = false ∧
    SubstituteEnvVars envC1 pathC1 = ("%LOCALAPPDATA%\\P".toList, true) ∧
    (∃ i v, SubstitutionPriority.get? i = some v ∧
      ∃ rem s, substCand envC1 pathC1 (expandShortUserPath envC1 pathC1) v = some (rem, s) ∧
        "%LOCALAPPDATA%\\P".toList = '%' :: v ++ '%' :: rem ∧ 1 ≤ s ∧
        (∀ w ∈ SubstitutionPriority, ∀ rs,
          substCand envC1 pathC1 (expandShortUserPath envC1 pathC1) w = some rs → rs.2 ≤ s) ∧
        (∀ j w, j < i → SubstitutionPriority.get? j = some w → ∀ rs,
          substCand envC1 pathC1 (expandShortUserPath envC1 pathC1) w = some rs → rs.2 < s)) :=
  ⟨by decide, by decide,
    (substituteEnvVars_best_C1 envC1 pathC1 (by decide)).1 _ (by decide)⟩

/-- A candidate accepted by `substCand` always sits at a path boundary: the
remaining suffix is empty or starts with a separator. -/
theorem substCand_boundary (env : EnvMap) (path np v rem : Str) (s : Int)
    (h : substCand env path np v = some (rem, s)) :
    rem = [] ∨ rem.getD 0 ' ' = '\\' ∨ rem.getD 0 ' ' = '/' := by
  unfold substCand at h
  cases hl : envLookup env v with
  | none => rw [hl] at h; cases h
  | some value =>
    rw [hl] at h
    dsimp only [] at h
    by_cases h1 : value = []
    · rw [if_pos h1] at h; cases h
    · rw [if_neg h1] at h
      by_cases h2 : (strLower value).isPrefixOf (strLower np) = true
      · rw [if_pos h2] at h
        by_cases h3 : np.drop value.length = [] ∨ (np.drop value.length).getD 0 ' ' = '\\' ∨
            (np.drop value.length).getD 0 ' ' = '/'
        · rw [if_pos h3] at h
          obtain ⟨h4, -⟩ := Prod.mk.inj (Option.some.inj h)
          rw [← h4]
          exact h3
        · rw [if_neg h3] at h; cases h
      · rw [if_neg h2] at h; cases h

/-- Splitting a string at its first `%` is unambiguous. -/
theorem pct_split_unique : ∀ (w v a b : Str), '%' ∉ w → '%' ∉ v →
    w ++ '%' :: a = v ++ '%' :: b → w = v ∧ a = b := by
  intro w
  induction w with
  | nil =>
    intro v a b _ hv heq
    cases v with
    | nil => simpa using heq
    | cons y ys =>
      exfalso
      simp only [List.nil_append, List.cons_append, List.cons.injEq] at heq
      exact hv (heq.1 ▸ List.mem_cons_self y ys)
  | cons x xs ih =>
    intro v a b hw hv heq
    cases v with
    | nil =>
      exfalso
      simp only [List.nil_append, List.cons_append, List.cons.injEq] at heq
      exact hw (heq.1.symm ▸ List.mem_cons_self x xs)
    | cons y ys =>
      simp only [List.cons_append, List.cons.injEq] at heq
      obtain ⟨rfl, heq2⟩ := heq
      have := ih ys a b (fun hm => hw (List.mem_cons_of_mem _ hm))
        (fun hm => hv (List.mem_cons_of_mem _ hm)) heq2
      exact ⟨by rw [this.1], this.2⟩

/-- The 8.3 user-segment expansion leaves `C:\Windows2` unchanged for every
environment: no `<systemdrive>\users\` prefix can match it. -/
theorem expandShort_cwin2 (env : EnvMap) :
    expandShortUserPath env ("C:\\Windows2".toList) = "C:\\Windows2".toList := by
  have hlow : strLower ("C:\\Windows2".toList)
      = ['c', ':', '\\', 'w', 'i', 'n', 'd', 'o', 'w', 's', '2'] := by decide
  have key : ∀ s : Str,
      ((if s = [] then ['c', ':'] else s) ++ '\\' :: "users".toList ++ ['\\']).isPrefixOf
        (strLower ("C:\\Windows2".toList)) = false := by
    intro s
    rw [hlow]
    by_cases hs : s = []
    · rw [if_pos hs]
      decide
    · rw [if_neg hs]
      rcases s with _ | ⟨a, _ | ⟨b, _ | ⟨c, _ | ⟨d, _ | ⟨e, rest⟩⟩⟩⟩⟩
      · exact absurd rfl hs
      · simp [List.isPrefixOf]
      · simp [List.isPrefixOf]
      · simp [List.isPrefixOf]
      · simp [List.isPrefixOf]
      · apply Bool.eq_false_iff.mpr
        intro h
        have hle := (List.isPrefixOf_iff_prefix.mp h).length_le
        simp at hle
  unfold expandShortUserPath
  rw [if_pos]
  rw [key]
  simp

/-- Every variable name in the priority list is `%`-free. -/
theorem substitutionPriority_pctFree : ∀ u ∈ SubstitutionPriority, '%' ∉ u := by decide

/-- C4.  A substitution is only ever made at a path boundary (the suffix after
the variable value is empty or starts with a separator); in particular a
variable whose value is `C:\Windows` is never accepted as a candidate for the
path `C:\Windows2`, and the result never substitutes it. -/
theorem substituteEnvVars_boundary_C4 :
    (∀ (env : EnvMap) (path out : Str), path.contains '%' = false →
        SubstituteEnvVars env path = (out, true) →
        ∃ v rem, v ∈ SubstitutionPriority ∧ out = '%' :: v ++ '%' :: rem ∧
          (rem = [] ∨ rem.getD 0 ' ' = '\\' ∨ rem.getD 0 ' ' = '/')) ∧
    (∀ (env : EnvMap) (v : Str), v ∈ SubstitutionPriority →
        envLookup env v = some ("C:\\Windows".toList) →
        substCand env ("C:\\Windows2".toList)
            (expandShortUserPath env ("C:\\Windows2".toList)) v = none ∧
          (SubstituteEnvVars env ("C:\\Windows2".toList)).1 ≠ '%' :: v ++ '%' :: ['2']) := by
  have hshape : ∀ (env : EnvMap) (path out : Str), path.contains '%' = false →
      SubstituteEnvVars env path = (out, true) →
      ∃ v rem, v ∈ SubstitutionPriority ∧ out = '%' :: v ++ '%' :: rem ∧
        (rem = [] ∨ rem.getD 0 ' ' = '\\' ∨ rem.getD 0 ' ' = '/') := by
    intro env path out hp hout
    obtain ⟨i, v, hget, rem, s, hcand, houteq, -, -, -⟩ :=
      (substituteEnvVars_best_C1 env path hp).1 out hout
    exact ⟨v, rem, List.get?_mem hget, houteq,
      substCand_boundary env path (expandShortUserPath env path) v rem s hcand⟩
  refine ⟨hshape, fun env v hv hlook => ?_⟩
  have hcand : substCand env ("C:\\Windows2".toList)
      (expandShortUserPath env ("C:\\Windows2".toList)) v = none := by
    rw [expandShort_cwin2]
    unfold substCand
    rw [hlook]
    dsimp only []
    rw [if_neg (by decide), if_pos (by decide), if_neg (by decide)]
  refine ⟨hcand, ?_⟩
  intro hbad
  rcases hres : SubstituteEnvVars env ("C:\\Windows2".toList) with ⟨fst, snd⟩
  cases snd with
  | false =>
    have hfst : fst = "C:\\Windows2".toList := by
      unfold SubstituteEnvVars at hres
      by_cases hguard : ("C:\\Windows2".toList : Str) = [] ∨
          ("C:\\Windows2".toList).contains '%' = true
      · rw [if_pos hguard] at hres
        exact (Prod.mk.inj hres).1.symm
      · rw [if_neg hguard] at hres
        set b := SubstitutionPriority.foldl
          (substStep env ("C:\\Windows2".toList)
            (expandShortUserPath env ("C:\\Windows2".toList))
            (strLower (expandShortUserPath env ("C:\\Windows2".toList)))) ⟨[], [], 0⟩
        by_cases hcond : b.varName ≠ [] ∧ 0 < b.saved
        · rw [if_pos hcond] at hres
          cases (Prod.mk.inj hres).2
        · rw [if_neg hcond] at hres
          exact (Prod.mk.inj hres).1.symm
    rw [hres] at hbad
    simp only [hfst] at hbad
    have hCpct : 'C' = '%' := by
      have h0 := congrArg (fun l : Str => l.getD 0 ' ') hbad
      simp at h0
    cases hCpct
  | true =>
    obtain ⟨w, rem, hwmem, hshapeEq, hbound⟩ :=
      hshape env ("C:\\Windows2".toList) fst (by decide) hres
    rw [hres] at hbad
    simp only [] at hbad
    rw [hshapeEq] at hbad
    have hsplit : w ++ '%' :: rem = v ++ '%' :: ['2'] := by
      simpa using hbad
    obtain ⟨rfl, hrem⟩ := pct_split_unique w v rem ['2']
      (substitutionPriority_pctFree w hwmem) (substitutionPriority_pctFree v hv) hsplit
    rw [hrem] at hbound
    rcases hbound with h | h | h <;> simp at h

/-! ## Claim C3: applyHotPaths -/

theorem foldl_cons_reverse {A B : Type} (f : A → B) (l : List A) (acc : List B) :
    l.foldl (fun m p => f p :: m) acc = (l.map f).reverse ++ acc := by
  induction l generalizing acc with
  | nil => simp
  | cons x xs ih => simp [ih]

theorem buildHotSet_eq (h : List Str) :
    buildHotSet h = (h.enum.map (fun p => (NormalizePath p.2, p.1))).reverse := by
  unfold buildHotSet
  rw [foldl_cons_reverse]
  simp

theorem mem_buildHotSet (h : List Str) (q : Str × Nat) :
    q ∈ buildHotSet h ↔ ∃ hp, h.get? q.2 = some hp ∧ q.1 = NormalizePath hp := by
  rw [buildHotSet_eq, List.mem_reverse, List.mem_map]
  constructor
  · rintro ⟨⟨i, hp⟩, hmem, heq⟩
    obtain ⟨hlt, hxe⟩ := List.mem_enum hmem
    subst heq
    refine ⟨hp, ?_, rfl⟩
    show h.get? i = some hp
    rw [List.get?_eq_getElem?, List.getElem?_eq_getElem hlt, ← hxe]
  · rintro ⟨hp, hget, hq1⟩
    have hlt : q.2 < h.length := (List.get?_eq_some.mp hget).1
    have hp2 : h[q.2] = hp := by
      have := List.get?_eq_getElem? h q.2 ▸ hget
      simpa [List.getElem?_eq_getElem hlt] using this
    refine ⟨(q.2, hp), ?_, ?_⟩
    · have hlt2 : q.2 < h.enum.length := by simpa using hlt
      have henum : h.enum[q.2] = (q.2, h[q.2]) :=
        List.getElem_enum h q.2 hlt2
      have := List.getElem_mem (l := h.enum) (n := q.2) hlt2
      rw [henum, hp2] at this
      exact this
    · rw [← hq1]

theorem hotLookup_some (h : List Str) (k : Str) (i : Nat)
    (hl : hotLookup (buildHotSet h) k = some i) :
    i < h.length ∧ ∃ hp, h.get? i = some hp ∧ k = NormalizePath hp := by
  unfold hotLookup at hl
  cases hf : (buildHotSet h).find? (fun q => q.1 == k) with
  | none => rw [hf] at hl; cases hl
  | some q =>
    rw [hf] at hl
    have hq1 : q.1 = k := by simpa using List.find?_some hf
    have hq2 : q.2 = i := by simpa using hl
    obtain ⟨hp, hget, hk⟩ := (mem_buildHotSet h q).mp (List.mem_of_find?_eq_some hf)
    rw [hq2] at hget
    exact ⟨(List.get?_eq_some.mp hget).1, hp, hget, by rw [← hq1, hk]⟩

theorem hotLookup_inj (h : List Str) (k₁ k₂ : Str) (i : Nat)
    (h1 : hotLookup (buildHotSet h) k₁ = some i)
    (h2 : hotLookup (buildHotSet h) k₂ = some i) : k₁ = k₂ := by
  obtain ⟨-, hp1, hg1, hk1⟩ := hotLookup_some h k₁ i h1
  obtain ⟨-, hp2, hg2, hk2⟩ := hotLookup_some h k₂ i h2
  rw [hg1] at hg2
  rw [hk1, hk2, Option.some.inj hg2]

theorem map_range_set {A : Type} (f : Nat → A) (n idx : Nat) (v : A) :
    ((List.range n).map f).set idx v
      = (List.range n).map (fun i => if i = idx then v else f i) := by
  apply List.ext_getElem
  · simp
  · intro j h1 h2
    rw [List.getElem_set]
    have hj : j < n := by simpa using h2
    by_cases hcase : idx = j
    · subst hcase
      simp [List.getElem_map, List.getElem_range]
    · rw [if_neg hcase]
      simp only [List.getElem_map, List.getElem_range]
      rw [if_neg (fun hh => hcase hh.symm)]

/-- Characterization of the distribution fold of `applyHotPaths`, assuming the
entries have pairwise-distinct normalized forms: slot `i` holds the unique
entry matching hot path `i`, the regular list collects the unmatched entries
in order. -/
theorem hotFold_char (hotPaths : List Str) (entries : List Str)
    (hN : (entries.map NormalizePath).Nodup) :
    hotFold (buildHotSet hotPaths) entries (List.replicate hotPaths.length none, []) =
      ((List.range hotPaths.length).map (fun i =>
          entries.find? (fun e => hotLookup (buildHotSet hotPaths) (NormalizePath e) == some i)),
       entries.filter (fun e =>
          hotLookup (buildHotSet hotPaths) (NormalizePath e) == none)) := by
  induction entries using List.reverseRecOn with
  | nil =>
    unfold hotFold
    simp [List.map_const']
  | append_singleton l e ih =>
    have hNl : (l.map NormalizePath).Nodup := by
      rw [List.map_append] at hN
      exact (List.nodup_append.mp hN).1
    have hNe : NormalizePath e ∉ l.map NormalizePath := by
      rw [List.map_append] at hN
      have hdisj := (List.nodup_append.mp hN).2.2
      intro hmem
      exact hdisj hmem (by simp)
    unfold hotFold at ih ⊢
    rw [List.foldl_append, ih hNl]
    simp only [List.foldl_cons, List.foldl_nil]
    cases hle : hotLookup (buildHotSet hotPaths) (NormalizePath e) with
    | none =>
      dsimp only []
      rw [Prod.mk.injEq]
      refine ⟨?_, ?_⟩
      · apply List.map_congr_left
        intro i hi
        rw [List.find?_append]
        have : [e].find? (fun x => hotLookup (buildHotSet hotPaths) (NormalizePath x) == some i)
            = none := by
          simp [List.find?, hle]
        rw [this, Option.or_none]
      · rw [List.filter_append]
        congr 1
        simp [List.filter, hle]
    | some idx =>
      have hidx : idx < hotPaths.length := (hotLookup_some _ _ _ hle).1
      dsimp only []
      rw [Prod.mk.injEq]
      refine ⟨?_, ?_⟩
      · rw [map_range_set]
        apply List.map_congr_left
        intro i hi
        have hi2 : i < hotPaths.length := by simpa using hi
        by_cases hcase : i = idx
        · subst hcase
          rw [if_pos rfl, List.find?_append]
          have hnone : l.find?
              (fun x => hotLookup (buildHotSet hotPaths) (NormalizePath x) == some i) = none := by
            cases hfind : l.find?
                (fun x => hotLookup (buildHotSet hotPaths) (NormalizePath x) == some i) with
            | none => rfl
            | some e2 =>
              exfalso
              have hpred : hotLookup (buildHotSet hotPaths) (NormalizePath e2) = some i := by
                simpa using List.find?_some hfind
              have hmem : e2 ∈ l := List.mem_of_find?_eq_some hfind
              have := hotLookup_inj hotPaths _ _ i hpred hle
              exact hNe (this ▸ List.mem_map_of_mem NormalizePath hmem)
          rw [hnone]
          simp [List.find?, hle]
        · rw [if_neg hcase, List.find?_append]
          have : [e].find? (fun x => hotLookup (buildHotSet hotPaths) (NormalizePath x) == some i)
              = none := by
            simp [List.find?, hle]
            have hne : (idx == i) = false := by
              simp only [beq_eq_false_iff_ne, ne_eq]
              exact fun hh => hcase hh.symm
            rw [hne]
          rw [this, Option.or_none]
      · rw [List.filter_append]
        have : List.filter (fun e2 =>
            hotLookup (buildHotSet hotPaths) (NormalizePath e2) == none) [e] = [] := by
          simp [List.filter, hle]
        rw [this, List.append_nil]

/-- C3 counterexample: with entries `C:\A` and `C:\A\` (equal normalized
forms) and the hot path `C:\A`, both entries match the hot path, but the later
one overwrites the earlier in the hot slot: the matched entry `C:\A` is dropped
from the output instead of being put first. -/
theorem applyHotPaths_drops_entry_C3 :
    applyHotPaths (["C:\\A", "C:\\A\\"].map String.toList) (["C:\\A"].map String.toList)
        = ["C:\\A\\".toList] ∧
      "C:\\A".toList ∉ applyHotPaths (["C:\\A", "C:\\A\\"].map String.toList)
        (["C:\\A"].map String.toList) := by
  constructor
  · decide
  · decide

/-- C3 amended: when the optimized entries have pairwise-distinct normalized
forms (as after duplicate removal), `applyHotPaths` puts, for each hot path in
config-declared order, the unique entry whose normalized form matches it,
followed by all unmatched entries in their original relative order; when
several entries normalize to the same hot path only the last survives (see the
counterexample).  In particular `[A,B,C,D]` with hot paths `[C,A]` yields
`[C,A,B,D]`. -/
theorem applyHotPaths_spec_C3 (entries hotPaths : List Str)
    (hN : (entries.map NormalizePath).Nodup) :
    applyHotPaths entries hotPaths =
      (List.range hotPaths.length).filterMap (fun i =>
        entries.find? (fun e => hotLookup (buildHotSet hotPaths) (NormalizePath e) == some i))
      ++ entries.filter (fun e =>
        hotLookup (buildHotSet hotPaths) (NormalizePath e) == none) ∧
    applyHotPaths (["C:\\A", "C:\\B", "C:\\C", "C:\\D"].map String.toList)
        (["C:\\C", "C:\\A"].map String.toList)
      = ["C:\\C", "C:\\A", "C:\\B", "C:\\D"].map String.toList := by
  constructor
  · unfold applyHotPaths
    by_cases hh : hotPaths = []
    · rw [if_pos hh]
      subst hh
      have hlk : ∀ e : Str, hotLookup (buildHotSet []) (NormalizePath e) = none := by
        intro e; rfl
      rw [List.length_nil, List.range_zero, List.filterMap_nil, List.nil_append]
      symm
      rw [List.filter_eq_self]
      intro a _
      rw [hlk a]
      rfl
    · rw [if_neg hh]
      rw [hotFold_char hotPaths entries hN]
      dsimp only []
      show ((List.range hotPaths.length).map _).filterMap id ++ _ = _
      rw [List.filterMap_map]
      rfl
  · decide

/-- Witness entries and hot paths for the amended C3. -/
def entsC3 : List Str := ["C:\\X", "C:\\Y"].map String.toList

/-- Witness for the amended C3 at concrete entries with distinct normalized
forms. -/
theorem applyHotPaths_spec_C3_witness :
    ((entsC3.map NormalizePath).Nodup) ∧
    (applyHotPaths entsC3 ["C:\\Y".toList] =
      (List.range 1).filterMap (fun i =>
        entsC3.find? (fun e => hotLookup (buildHotSet ["C:\\Y".toList]) (NormalizePath e) == some i))
      ++ entsC3.filter (fun e =>
        hotLookup (buildHotSet ["C:\\Y".toList]) (NormalizePath e) == none)) :=
  ⟨by decide, (applyHotPaths_spec_C3 entsC3 ["C:\\Y".toList] (by decide)).1⟩

/-- Witness for C4 at a concrete environment binding `SystemRoot` to
`C:\Windows`. -/
theorem substituteEnvVars_boundary_C4_witness :
    (("SystemRoot".toList : Str) ∈ SubstitutionPriority) ∧
    envLookup [("SystemRoot".toList, "C:\\Windows".toList)] "SystemRoot".toList
      = some ("C:\\Windows".toList) ∧
    (substCand [("SystemRoot".toList, "C:\\Windows".toList)] ("C:\\Windows2".toList)
        (expandShortUserPath [("SystemRoot".toList, "C:\\Windows".toList)]
          ("C:\\Windows2".toList)) "SystemRoot".toList = none ∧
      (SubstituteEnvVars [("SystemRoot".toList, "C:\\Windows".toList)]
          ("C:\\Windows2".toList)).1 ≠ '%' :: "SystemRoot".toList ++ '%' :: ['2']) :=
  ⟨by decide, by decide,
    substituteEnvVars_boundary_C4.2 _ _ (by decide) (by decide)⟩

/-! ## Claim C5: duplicate/dead removal never lengthens the PATH -/

theorem trimSpace_length_le (s : Str) : (trimSpace s).length ≤ s.length := by
  unfold trimSpace
  calc ((s.dropWhile isSpaceC).reverse.dropWhile isSpaceC).reverse.length
      = ((s.dropWhile isSpaceC).reverse.dropWhile isSpaceC).length := by
        rw [List.length_reverse]
    _ ≤ (s.dropWhile isSpaceC).reverse.length := (List.dropWhile_sublist isSpaceC).length_le
    _ = (s.dropWhile isSpaceC).length := by rw [List.length_reverse]
    _ ≤ s.length := (List.dropWhile_sublist isSpaceC).length_le

/-- Join length is monotone in the multiset of entries. -/
theorem joinLen_le_of_multiset_le (l₁ l₂ : List Str)
    (h : (l₁ : Multiset Str) ≤ (l₂ : Multiset Str)) :
    (JoinPath l₁).length ≤ (JoinPath l₂).length := by
  rcases eq_or_ne l₁ [] with rfl | h1
  · simp [JoinPath, goJoin]
  · have h2 : l₂ ≠ [] := by
      intro hc
      subst hc
      have := Multiset.card_le_card h
      simp at this
      exact h1 this
    have e1 := length_goJoin ';' l₁ h1
    have e2 := length_goJoin ';' l₂ h2
    have hsum : (l₁.map (fun e => e.length + 1)).sum ≤ (l₂.map (fun e => e.length + 1)).sum := by
      have hm : Multiset.map (fun e : Str => e.length + 1) (l₁ : Multiset Str)
          ≤ Multiset.map (fun e : Str => e.length + 1) (l₂ : Multiset Str) :=
        Multiset.map_le_map h
      obtain ⟨u, hu⟩ := Multiset.le_iff_exists_add.mp hm
      have : ((l₂.map (fun e => e.length + 1) : List Nat) : Multiset Nat).sum
          = ((l₁.map (fun e => e.length + 1) : List Nat) : Multiset Nat).sum + u.sum := by
        show (Multiset.map (fun e : Str => e.length + 1) (l₂ : Multiset Str)).sum = _
        rw [hu, Multiset.sum_add]
        rfl
      have hls : (l₂.map (fun e => e.length + 1)).sum
          = (l₁.map (fun e => e.length + 1)).sum + u.sum := this
      omega
    unfold JoinPath
    omega

/-- Dropping entries and trimming never lengthens a rejoined PATH. -/
theorem joinPath_parse_le (s : Str) : (JoinPath (ParsePath s)).length ≤ s.length := by
  rcases eq_or_ne s [] with rfl | hs
  · simp [ParsePath, JoinPath, goJoin]
  · unfold ParsePath
    rw [if_neg hs]
    have hfilter : (JoinPath ((((goSplit ';' s).map trimSpace)).filter (fun e => e ≠ []))).length
        ≤ (JoinPath ((goSplit ';' s).map trimSpace)).length := by
      apply joinLen_le_of_multiset_le
      exact Multiset.coe_le.mpr (List.Sublist.subperm (List.filter_sublist _))
    have hmap : (JoinPath ((goSplit ';' s).map trimSpace)).length
        ≤ (JoinPath (goSplit ';' s)).length := by
      have h1 : ((goSplit ';' s).map trimSpace) ≠ [] := by
        simpa using goSplit_ne_nil ';' s
      have h2 := goSplit_ne_nil ';' s
      have e1 := length_goJoin ';' ((goSplit ';' s).map trimSpace) h1
      have e2 := length_goJoin ';' (goSplit ';' s) h2
      have hsum : (((goSplit ';' s).map trimSpace).map (fun e => e.length + 1)).sum
          ≤ ((goSplit ';' s).map (fun e => e.length + 1)).sum := by
        rw [List.map_map]
        apply List.sum_le_sum
        intro x _
        have := trimSpace_length_le x
        simp only [Function.comp]
        omega
      unfold JoinPath
      omega
    have hjoin : (JoinPath (goSplit ';' s)).length = s.length := by
      unfold JoinPath
      rw [goJoin_goSplit]
    omega

/-- Characterization of `processEntry` with shortening and substitution
disabled: only the duplicate and dead checks act, and surviving entries pass
through unchanged. -/
theorem processEntry_dupdead (b : Bool) (sc : Str) (O : Oracles) (st : ProcState) (e : Str) :
    Proc.processEntry ⟨true, true, false, false, b, sc⟩ O st e =
      if st.seen.contains (NormalizePath e) then
        ({ st with
            changes := st.changes ++ [⟨chgDuplicate, e, [], 0⟩],
            duplicatesRemoved := st.duplicatesRemoved + 1 }, none)
      else if !e.contains '%' && !PathExists O.fs e then
        ({ st with
            seen := NormalizePath e :: st.seen,
            changes := st.changes ++ [⟨chgDead, e, [], 0⟩],
            deadPathsRemoved := st.deadPathsRemoved + 1 }, none)
      else ({ st with seen := NormalizePath e :: st.seen }, some e) := by
  by_cases hmem : NormalizePath e ∈ st.seen <;>
    by_cases hpct : '%' ∈ e <;>
      rcases h3 : PathExists O.fs e with _ | _ <;>
        simp [Proc.processEntry, Proc.isDuplicate, Proc.isDeadPath, Proc.tryShorten,
          Proc.trySubstituteVars, Proc.tryShortenSuffix, hmem, hpct, h3]

/-- With only duplicate and dead removal enabled, the entry-processing fold
keeps a sublist of the entries whose normalized forms are pairwise distinct. -/
theorem dupdead_fold (b : Bool) (sc : Str) (O : Oracles) :
    ∀ (entries : List Str) (st : ProcState) (acc : List Str),
      (∀ n ∈ acc.map NormalizePath, n ∈ st.seen) →
      (acc.map NormalizePath).Nodup →
      ∃ kept : List Str, kept.Sublist entries ∧
        (entries.foldl (fun acc2 entry =>
            match (Proc.processEntry ⟨true, true, false, false, b, sc⟩ O acc2.1 entry).2 with
            | some processed =>
              ((Proc.processEntry ⟨true, true, false, false, b, sc⟩ O acc2.1 entry).1,
                acc2.2 ++ [processed])
            | none =>
              ((Proc.processEntry ⟨true, true, false, false, b, sc⟩ O acc2.1 entry).1,
                acc2.2)) (st, acc)).2 = acc ++ kept ∧
        ((acc ++ kept).map NormalizePath).Nodup := by
  intro entries
  induction entries with
  | nil =>
    intro st acc h1 h2
    exact ⟨[], List.nil_sublist _, by simp, by simpa using h2⟩
  | cons e rest ih =>
    intro st acc h1 h2
    rw [List.foldl_cons]
    by_cases h1e : st.seen.contains (NormalizePath e) = true
    · have hpe := processEntry_dupdead b sc O st e
      rw [if_pos h1e] at hpe
      rw [hpe]
      dsimp only []
      obtain ⟨kept, hsub, heq, hnd⟩ := ih { st with
          changes := st.changes ++ [⟨chgDuplicate, e, [], 0⟩],
          duplicatesRemoved := st.duplicatesRemoved + 1 }
        acc (fun n hn => h1 n hn) h2
      exact ⟨kept, List.Sublist.cons e hsub, heq, hnd⟩
    · have hseen : NormalizePath e ∉ st.seen := fun hmem =>
        h1e (List.elem_eq_true_of_mem hmem)
      by_cases h2e : (!e.contains '%' && !PathExists O.fs e) = true
      · have hpe := processEntry_dupdead b sc O st e
        rw [if_neg h1e, if_pos h2e] at hpe
        rw [hpe]
        dsimp only []
        obtain ⟨kept, hsub, heq, hnd⟩ := ih { st with
            seen := NormalizePath e :: st.seen,
            changes := st.changes ++ [⟨chgDead, e, [], 0⟩],
            deadPathsRemoved := st.deadPathsRemoved + 1 }
          acc (fun n hn => List.mem_cons_of_mem _ (h1 n hn)) h2
        exact ⟨kept, List.Sublist.cons e hsub, heq, hnd⟩
      · have hpe := processEntry_dupdead b sc O st e
        rw [if_neg h1e, if_neg h2e] at hpe
        rw [hpe]
        dsimp only []
        have hnotin : NormalizePath e ∉ acc.map NormalizePath := by
          intro hmem
          exact hseen (h1 _ hmem)
        have h1h : ∀ n ∈ (acc ++ [e]).map NormalizePath, n ∈ NormalizePath e :: st.seen := by
          intro n hn
          rw [List.map_append] at hn
          rcases List.mem_append.mp hn with hn | hn
          · exact List.mem_cons_of_mem _ (h1 n hn)
          · simp only [List.map_cons, List.map_nil, List.mem_singleton] at hn
            rw [hn]
            exact List.mem_cons_self _ _
        have h2h : ((acc ++ [e]).map NormalizePath).Nodup := by
          rw [List.map_append]
          rw [List.nodup_append]
          refine ⟨h2, by simp, ?_⟩
          intro x hx
          simp only [List.map_cons, List.map_nil, List.mem_singleton]
          intro hxe
          exact hnotin (hxe ▸ hx)
        obtain ⟨kept, hsub, heq, hnd⟩ := ih { st with seen := NormalizePath e :: st.seen }
          (acc ++ [e]) (fun n hn => h1h n hn) h2h
        refine ⟨e :: kept, List.Sublist.cons₂ e hsub, ?_, ?_⟩
        · rw [heq, List.append_assoc]
          rfl
        · rw [List.append_assoc] at hnd
          exact hnd

/-- Replacing a slot only adds the new entry to (a subset of) the collected
options. -/
theorem reduceOption_set_le (slots : List (Option Str)) (idx : Nat) (e : Str) :
    ((slots.set idx (some e)).reduceOption : Multiset Str)
      ≤ e ::ₘ (slots.reduceOption : Multiset Str) := by
  induction slots generalizing idx with
  | nil => simp [List.reduceOption]
  | cons s ss ih =>
    cases idx with
    | zero =>
      cases s with
      | none =>
        simp only [List.set, List.reduceOption_cons_of_some, List.reduceOption_cons_of_none]
        exact le_refl _
      | some a =>
        simp only [List.set, List.reduceOption_cons_of_some]
        rw [show ((e :: ss.reduceOption : List Str) : Multiset Str)
          = e ::ₘ (ss.reduceOption : Multiset Str) from rfl]
        rw [show ((a :: ss.reduceOption : List Str) : Multiset Str)
          = a ::ₘ (ss.reduceOption : Multiset Str) from rfl]
        exact Multiset.cons_le_cons e (Multiset.le_cons_self _ _)
    | succ n =>
      cases s with
      | none =>
        simp only [List.set, List.reduceOption_cons_of_none]
        exact ih n
      | some a =>
        simp only [List.set, List.reduceOption_cons_of_some]
        have h1 : ((a :: (ss.set n (some e)).reduceOption : List Str) : Multiset Str)
            = a ::ₘ ((ss.set n (some e)).reduceOption : Multiset Str) := rfl
        have h2 : ((a :: ss.reduceOption : List Str) : Multiset Str)
            = a ::ₘ (ss.reduceOption : Multiset Str) := rfl
        rw [h1, h2, Multiset.cons_swap e a]
        exact (Multiset.cons_le_cons a (ih n))

/-- The distribution fold of `applyHotPaths` never invents entries: its output
is a sub-multiset of the initial state plus the processed entries. -/
theorem hotFold_le (hs : List (Str × Nat)) :
    ∀ (entries : List Str) (slots : List (Option Str)) (reg : List Str),
      (((hotFold hs entries (slots, reg)).1.reduceOption
          ++ (hotFold hs entries (slots, reg)).2 : List Str) : Multiset Str)
        ≤ ((slots.reduceOption ++ reg ++ entries : List Str) : Multiset Str) := by
  intro entries
  induction entries with
  | nil =>
    intro slots reg
    unfold hotFold
    simp
  | cons e rest ih =>
    intro slots reg
    unfold hotFold at ih ⊢
    rw [List.foldl_cons]
    cases hle : hotLookup hs (NormalizePath e) with
    | none =>
      dsimp only []
      refine le_trans (ih slots (reg ++ [e])) (le_of_eq ?_)
      show ((slots.reduceOption ++ (reg ++ [e]) ++ rest : List Str) : Multiset Str)
          = ((slots.reduceOption ++ reg ++ (e :: rest) : List Str) : Multiset Str)
      have : slots.reduceOption ++ (reg ++ [e]) ++ rest
          = slots.reduceOption ++ reg ++ ([e] ++ rest) := by
        simp [List.append_assoc]
      rw [this]
      rfl
    | some idx =>
      dsimp only []
      refine le_trans (ih (slots.set idx (some e)) reg) ?_
      show ((slots.set idx (some e)).reduceOption : Multiset Str) + (reg : Multiset Str)
            + (rest : Multiset Str)
          ≤ (slots.reduceOption : Multiset Str) + (reg : Multiset Str) + ((e :: rest : List Str) : Multiset Str)
      have h1 := reduceOption_set_le slots idx e
      have h2 : ((e :: rest : List Str) : Multiset Str) = e ::ₘ (rest : Multiset Str) := rfl
      rw [h2]
      calc ((slots.set idx (some e)).reduceOption : Multiset Str) + (reg : Multiset Str)
            + (rest : Multiset Str)
          ≤ (e ::ₘ (slots.reduceOption : Multiset Str)) + (reg : Multiset Str)
            + (rest : Multiset Str) := by
            exact add_le_add (add_le_add h1 (le_refl _)) (le_refl _)
        _ = (slots.reduceOption : Multiset Str) + (reg : Multiset Str)
            + (e ::ₘ (rest : Multiset Str)) := by
            rw [Multiset.cons_add, Multiset.cons_add, Multiset.add_cons]

/-- `applyHotPaths` never lengthens the multiset of entries. -/
theorem applyHotPaths_le (entries hotPaths : List Str) :
    ((applyHotPaths entries hotPaths : List Str) : Multiset Str)
      ≤ ((entries : List Str) : Multiset Str) := by
  unfold applyHotPaths
  by_cases hh : hotPaths = []
  · rw [if_pos hh]
  · rw [if_neg hh]
    have := hotFold_le (buildHotSet hotPaths) entries
      (List.replicate hotPaths.length none) []
    have hrep : (List.replicate hotPaths.length (none : Option Str)).reduceOption = [] := by
      induction hotPaths.length with
      | zero => rfl
      | succ n ihn => simpa [List.replicate, List.reduceOption_cons_of_none] using ihn
    rw [hrep] at this
    simpa using this

/-- C5.  With only duplicate and dead removal enabled (shortening and variable
substitution off), the optimized PATH is never longer than the original,
whatever the filesystem oracle and configured hot paths. -/
theorem optimize_shrinks_C5 (pathStr : Str) (b : Bool) (sc : Str) (O : Oracles)
    (config : Config) :
    (Proc.OptimizeWithProgress pathStr ⟨true, true, false, false, b, sc⟩ O config).Optimized.Length
      ≤ (Proc.OptimizeWithProgress pathStr
          ⟨true, true, false, false, b, sc⟩ O config).Original.Length := by
  obtain ⟨kept, hsub, heq, -⟩ :=
    dupdead_fold b sc O (ParsePath pathStr) initState []
      (by intro n hn; simp at hn) (by simp)
  have hbase : ((Proc.processAll ⟨true, true, false, false, b, sc⟩ O (ParsePath pathStr)).2
      : Multiset Str) ≤ ((ParsePath pathStr : List Str) : Multiset Str) := by
    unfold Proc.processAll
    rw [heq]
    simp only [List.nil_append]
    exact Multiset.coe_le.mpr (List.Sublist.subperm hsub)
  have hopt : (((if config.HotPaths ≠ [] then
        applyHotPaths (Proc.processAll ⟨true, true, false, false, b, sc⟩ O
          (ParsePath pathStr)).2 config.HotPaths
      else (Proc.processAll ⟨true, true, false, false, b, sc⟩ O (ParsePath pathStr)).2)
      : List Str) : Multiset Str) ≤ ((ParsePath pathStr : List Str) : Multiset Str) := by
    by_cases hc : config.HotPaths ≠ []
    · rw [if_pos hc]
      exact le_trans (applyHotPaths_le _ _) hbase
    · rw [if_neg hc]
      exact hbase
  show (JoinPath _).length ≤ pathStr.length
  exact le_trans (joinLen_le_of_multiset_le _ _ hopt) (joinPath_parse_le pathStr)

/-- C9.  The `ReorderPaths` option is never consulted: the optimizer returns
exactly the same `OptimizeResult` whatever its value; hot-path reordering is
driven solely by the persisted config. -/
theorem reorderPaths_no_effect_C9 (pathStr : Str) (opts : OptimizeOptions) (b : Bool)
    (O : Oracles) (config : Config) :
    Proc.OptimizeWithProgress pathStr { opts with ReorderPaths := b } O config
      = Proc.OptimizeWithProgress pathStr opts O config := rfl

/-! ## Claim C7: idempotence of NormalizePath -/

/-- An element of a canonical cleaned body: nonempty, separator-free, and not
`.` or `..`. -/
def goodElem (e : Str) : Bool :=
  !e.isEmpty && e.all (fun c => !isSlashC c) && !(e == ['.']) && !(e == ['.', '.'])

/-- Canonical normal forms of `NormalizePath`: lowercase, no forward slash, no
trailing separator, and after the volume a rooted or relative sequence of good
elements separated by single backslashes. -/
def Canon (y : Str) : Bool :=
  (strLower y == y) && !(y.contains '/') && (trimRightSlashes y == y) &&
  (match y.drop (volumeNameLen y) with
   | [] => false
   | c :: cs =>
     if c == '\\' then (goSplit '\\' cs).all goodElem
     else !isSlashC c && (goSplit '\\' (c :: cs)).all goodElem)

theorem goJoin_cons (c : Char) (s : Str) (l : List Str) :
    goJoin c (s :: l) = s ++ (if l = [] then [] else c :: goJoin c l) := by
  cases l <;> simp [goJoin]

theorem cleanLoop_nil (rest : Str) (fuel : Nat) (out : Str × Bool) (rooted : Bool)
    (dotdot : Nat) : cleanLoop rest fuel [] out rooted dotdot = out := by
  cases fuel <;> rfl

theorem fromSlash_eq_self (y : Str) (h : '/' ∉ y) : fromSlash y = y := by
  induction y with
  | nil => rfl
  | cons c cs ih =>
    simp only [List.mem_cons, not_or] at h
    unfold fromSlash at ih ⊢
    simp only [List.map_cons]
    rw [ih h.2]
    rw [show (c == '/') = false from beq_eq_false_iff_ne.mpr (fun hh => h.1 hh.symm)]
    simp

theorem drop_cons_facts (rest : Str) (m : Nat) (c : Char) (cs : Str)
    (h : rest.drop m = c :: cs) :
    m < rest.length ∧ rest.get? m = some c ∧
      rest.take m ++ [c] = rest.take (m + 1) ∧ rest.drop (m + 1) = cs := by
  have hm : m < rest.length := by
    by_contra hle
    push_neg at hle
    rw [List.drop_eq_nil_of_le hle] at h
    cases h
  have hget : rest.get? m = some c := by
    rw [List.get?_eq_getElem?]
    have := List.getElem?_drop rest m 0
    rw [h] at this
    simpa using this.symm
  refine ⟨hm, hget, ?_, ?_⟩
  · rw [List.take_succ]
    rw [List.get?_eq_getElem?] at hget
    rw [hget]
    rfl
  · have := List.drop_drop 1 m rest
    rw [h] at this
    simpa [Nat.add_comm] using this.symm

theorem appendC_take (rest : Str) (m : Nat) (c : Char) (cs : Str)
    (h : rest.drop m = c :: cs) :
    appendC rest (rest.take m, true) c = (rest.take (m + 1), true) := by
  obtain ⟨hm, hget, htake, -⟩ := drop_cons_facts rest m c cs h
  unfold appendC
  have hlen : (rest.take m).length = m := by
    rw [List.length_take]
    omega
  dsimp only []
  rw [hlen, hget, htake]
  simp

theorem appendStr_take (rest : Str) :
    ∀ (e : Str) (m : Nat) (tail : Str), rest.drop m = e ++ tail →
      appendStr rest (rest.take m, true) e = (rest.take (m + e.length), true) := by
  intro e
  induction e with
  | nil =>
    intro m tail h
    simp [appendStr]
  | cons c cdr ih =>
    intro m tail h
    rw [List.cons_append] at h
    unfold appendStr
    rw [List.foldl_cons, appendC_take rest m c (cdr ++ tail) h]
    have h2 : rest.drop (m + 1) = cdr ++ tail := (drop_cons_facts rest m c (cdr ++ tail) h).2.2.2
    have hi := ih (m + 1) tail h2
    unfold appendStr at hi
    rw [hi]
    rw [show m + (c :: cdr).length = m + 1 + cdr.length by simp; omega]

theorem takeWhile_elem (e tail : Str) (he : e.all (fun c => !isSlashC c) = true)
    (ht : sepNextB tail = true) :
    (e ++ tail).takeWhile (fun d => !isSlashC d) = e ∧
      (e ++ tail).dropWhile (fun d => !isSlashC d) = tail := by
  induction e with
  | nil =>
    cases tail with
    | nil => exact ⟨rfl, rfl⟩
    | cons d ds =>
      have hd : isSlashC d = true := by simpa [sepNextB] using ht
      rw [List.nil_append, List.takeWhile_cons, List.dropWhile_cons]
      rw [show (!isSlashC d) = false by rw [hd]; rfl]
      exact ⟨by simp, by simp⟩
  | cons c ccs ih =>
    simp only [List.all_cons, Bool.and_eq_true] at he
    obtain ⟨hc, hcs⟩ := he
    rw [List.cons_append, List.takeWhile_cons, List.dropWhile_cons, hc]
    obtain ⟨ih1, ih2⟩ := ih hcs
    rw [ih1, ih2]
    exact ⟨rfl, rfl⟩

theorem goodElem_shape (e : Str) (hg : goodElem e = true) :
    ∃ c ctail, e = c :: ctail ∧ isSlashC c = false ∧
      e.all (fun c => !isSlashC c) = true ∧ e ≠ ['.'] ∧ e ≠ ['.', '.'] := by
  unfold goodElem at hg
  simp only [Bool.and_eq_true, Bool.not_eq_true'] at hg
  obtain ⟨⟨⟨hne, hall⟩, h1⟩, h2⟩ := hg
  cases e with
  | nil => cases hne
  | cons c ctail =>
    refine ⟨c, ctail, rfl, ?_, hall, ?_, ?_⟩
    · simp only [List.all_cons, Bool.and_eq_true, Bool.not_eq_true'] at hall
      exact hall.1
    · intro hh
      rw [hh] at h1
      simp at h1
    · intro hh
      rw [hh] at h2
      simp at h2

theorem dotNextB_cons (d : Char) (l : Str) :
    dotNextB (d :: l) = if d = '.' then sepNextB l else false := by
  by_cases hd : d = '.'
  · subst hd
    simp [dotNextB]
  · simp [dotNextB, hd]

theorem elem_not_dot_checks (c : Char) (ctail tail : Str)
    (hall : ((c :: ctail).all fun d => !isSlashC d) = true)
    (hne1 : c :: ctail ≠ ['.']) (hne2 : c :: ctail ≠ ['.', '.']) :
    ¬(c = '.' ∧ sepNextB (ctail ++ tail) = true) ∧
      ¬(c = '.' ∧ dotNextB (ctail ++ tail) = true) := by
  constructor
  · rintro ⟨rfl, hsep⟩
    cases ctail with
    | nil => exact hne1 rfl
    | cons d dt =>
      have hd : isSlashC d = false := by
        simp only [List.all_cons, Bool.and_eq_true, Bool.not_eq_true'] at hall
        exact hall.2.1
      rw [List.cons_append] at hsep
      simp [sepNextB, hd] at hsep
  · rintro ⟨rfl, hdot⟩
    cases ctail with
    | nil => exact hne1 rfl
    | cons d dt =>
      rw [List.cons_append, dotNextB_cons] at hdot
      by_cases hd : d = '.'
      · subst hd
        rw [if_pos rfl] at hdot
        cases dt with
        | nil => exact hne2 rfl
        | cons d2 dt2 =>
          have hd2 : isSlashC d2 = false := by
            simp only [List.all_cons, Bool.and_eq_true, Bool.not_eq_true'] at hall
            exact hall.2.2.1
          rw [List.cons_append] at hdot
          simp [sepNextB, hd2] at hdot
      · rw [if_neg hd] at hdot
        cases hdot

theorem cleanLoop_canon (rest : Str) :
    ∀ (elems : List Str) (fuel m dotdot : Nat) (rooted : Bool),
      (∀ e ∈ elems, goodElem e = true) → elems ≠ [] →
      (((rooted && decide (m ≠ 1) || !rooted && decide (m ≠ 0)) = false ∧
          rest.drop m = goJoin '\\' elems)
        ∨ ((rooted && decide (m ≠ 1) || !rooted && decide (m ≠ 0)) = true ∧
          rest.drop m = '\\' :: goJoin '\\' elems)) →
      (rest.drop m).length < fuel →
      cleanLoop rest fuel (rest.drop m) (rest.take m, true) rooted dotdot
        = (rest, true) := by
  intro elems
  induction elems with
  | nil => intro _ _ _ _ _ hne _ _; exact absurd rfl hne
  | cons e es ih =>
    intro fuel m dotdot rooted hgood hne hstate hfuel
    have hgoodE : goodElem e = true := hgood e (List.mem_cons_self e es)
    obtain ⟨c, ctail, heq, hslc, hall, hne1, hne2⟩ := goodElem_shape e hgoodE
    rcases hstate with ⟨hguard, hdrop⟩ | ⟨hguard, hdrop⟩
    · -- element starts immediately (no pending separator)
      rw [goJoin_cons] at hdrop
      have hsep_tail : sepNextB (if es = [] then ([] : Str)
          else '\\' :: goJoin '\\' es) = true := by
        rcases es with _ | ⟨e2, es2⟩ <;> simp [sepNextB, isSlashC]
      have hdrop' : rest.drop m = (c :: ctail)
          ++ (if es = [] then ([] : Str) else '\\' :: goJoin '\\' es) := by
        rw [hdrop, heq]
      have hall' : ((c :: ctail).all fun d => !isSlashC d) = true := heq ▸ hall
      have hne1' : c :: ctail ≠ ['.'] := heq ▸ hne1
      have hne2' : c :: ctail ≠ ['.', '.'] := heq ▸ hne2
      obtain ⟨hnd1, hnd2⟩ := elem_not_dot_checks c ctail _ hall' hne1' hne2'
      have hlen1 : 1 ≤ (rest.drop m).length := by
        rw [hdrop']
        simp
      rcases fuel with _ | f
      · omega
      rw [hdrop', List.cons_append]
      unfold cleanLoop
      rw [if_neg (by simp [hslc]), if_neg hnd1, if_neg hnd2]
      dsimp only []
      have hmlt : m < rest.length := by
        by_contra hh
        push_neg at hh
        rw [List.drop_eq_nil_of_le hh] at hdrop'
        cases hdrop'
      have hmlen : (rest.take m).length = m := by
        rw [List.length_take]
        omega
      rw [hmlen]
      rw [if_neg (show ¬((rooted && decide (m ≠ 1) || !rooted && decide (m ≠ 0)) = true)
        by rw [hguard]; exact Bool.false_ne_true)]
      obtain ⟨htw, hdw⟩ := takeWhile_elem (c :: ctail) _ hall' hsep_tail
      rw [List.cons_append] at htw hdw
      rw [htw, hdw, appendStr_take rest (c :: ctail) m _ hdrop']
      rcases es with _ | ⟨e2, es2⟩
      · simp only [if_true] at hdrop' ⊢
        rw [cleanLoop_nil]
        have hlen : rest.length = m + (c :: ctail).length := by
          have hl := congrArg List.length hdrop'
          rw [List.length_drop] at hl
          simp only [List.append_nil] at hl
          omega
        rw [List.take_of_length_le (le_of_eq hlen)]
      · simp only [if_neg (by simp : ¬ (e2 :: es2 = []))] at hdrop' ⊢
        have hdrop2 : rest.drop (m + (c :: ctail).length)
            = '\\' :: goJoin '\\' (e2 :: es2) := by
          have hcast := congrArg (List.drop (c :: ctail).length) hdrop'
          rw [List.drop_drop, List.drop_left] at hcast
          exact hcast
        rw [← hdrop2]
        apply ih (f) (m + (c :: ctail).length) dotdot rooted
          (fun x hx => hgood x (List.mem_cons_of_mem _ hx)) (by simp)
        · right
          refine ⟨?_, hdrop2⟩
          rcases hr : rooted with _ | _
          · simp only [hr, Bool.false_and, Bool.false_or, Bool.not_false, Bool.true_and]
            simp only [decide_eq_true_eq]
            simp
          · rw [hr] at hguard
            simp only [Bool.true_and, Bool.not_true, Bool.false_and, Bool.or_false] at hguard
            have hm1 : m = 1 := by
              simpa using hguard
            simp only [Bool.true_and, Bool.not_true, Bool.false_and, Bool.or_false,
              decide_eq_true_eq, List.length_cons]
            omega
        · have hlb := congrArg List.length hdrop'
          simp only [List.length_cons, List.length_append] at hlb
          have hgoal := congrArg List.length hdrop2
          simp only [List.length_cons] at hgoal ⊢
          rw [hgoal]
          omega
    · -- a separator is pending: the loop skips it, then re-appends it
      obtain ⟨hmlt, hget, htake1, hdropS⟩ :=
        drop_cons_facts rest m '\\' (goJoin '\\' (e :: es)) hdrop
      have hsep_tail : sepNextB (if es = [] then ([] : Str)
          else '\\' :: goJoin '\\' es) = true := by
        rcases es with _ | ⟨e2, es2⟩ <;> simp [sepNextB, isSlashC]
      have hall' : ((c :: ctail).all fun d => !isSlashC d) = true := heq ▸ hall
      have hne1' : c :: ctail ≠ ['.'] := heq ▸ hne1
      have hne2' : c :: ctail ≠ ['.', '.'] := heq ▸ hne2
      obtain ⟨hnd1, hnd2⟩ := elem_not_dot_checks c ctail _ hall' hne1' hne2'
      rw [goJoin_cons, heq] at hdropS
      have hlen2 : 2 ≤ (rest.drop m).length := by
        have := congrArg List.length hdrop
        rw [List.length_cons, goJoin_cons, heq] at this
        simp only [List.length_append, List.length_cons] at this
        omega
      rcases fuel with _ | f
      · omega
      rcases f with _ | f2
      · omega
      rw [hdrop]
      unfold cleanLoop
      rw [if_pos (show isSlashC '\\' = true from rfl)]
      rw [goJoin_cons, heq, List.cons_append]
      unfold cleanLoop
      rw [if_neg (by simp [hslc]), if_neg hnd1, if_neg hnd2]
      dsimp only []
      have hmlen : (rest.take m).length = m := by
        rw [List.length_take]
        omega
      rw [hmlen, if_pos hguard, appendC_take rest m '\\' (goJoin '\\' (e :: es)) hdrop]
      obtain ⟨htw, hdw⟩ := takeWhile_elem (c :: ctail) _ hall' hsep_tail
      rw [List.cons_append] at htw hdw
      rw [htw, hdw, appendStr_take rest (c :: ctail) (m + 1) _ hdropS]
      rcases es with _ | ⟨e2, es2⟩
      · simp only [if_true] at hdropS ⊢
        rw [cleanLoop_nil]
        have hlen : rest.length = m + 1 + (c :: ctail).length := by
          have hl := congrArg List.length hdropS
          rw [List.length_drop] at hl
          simp only [List.append_nil] at hl
          omega
        rw [List.take_of_length_le (le_of_eq hlen)]
      · simp only [if_neg (by simp : ¬ (e2 :: es2 = []))] at hdropS ⊢
        have hdrop2 : rest.drop (m + 1 + (c :: ctail).length)
            = '\\' :: goJoin '\\' (e2 :: es2) := by
          have hcast := congrArg (List.drop (c :: ctail).length) hdropS
          rw [List.drop_drop, List.drop_left] at hcast
          exact hcast
        rw [← hdrop2]
        apply ih f2 (m + 1 + (c :: ctail).length) dotdot rooted
          (fun x hx => hgood x (List.mem_cons_of_mem _ hx)) (by simp)
        · right
          refine ⟨?_, hdrop2⟩
          rcases hr : rooted with _ | _
          · simp only [hr, Bool.false_and, Bool.false_or, Bool.not_false, Bool.true_and,
              decide_eq_true_eq, List.length_cons]
            omega
          · simp only [hr, Bool.true_and, Bool.not_true, Bool.false_and, Bool.or_false,
              decide_eq_true_eq, List.length_cons]
            omega
        · simp only [List.length_drop, List.length_cons] at hfuel ⊢
          have hlS := congrArg List.length hdropS
          simp only [List.length_drop, List.length_append, List.length_cons] at hlS
          omega

theorem canon_fixed (y : Str) (h : Canon y = true) : goClean y = y := by
  unfold Canon at h
  simp only [Bool.and_eq_true, beq_iff_eq, Bool.not_eq_true'] at h
  obtain ⟨⟨⟨hlow, hslash⟩, htrim⟩, hmatch⟩ := h
  have hmem : '/' ∉ y := by
    intro hm
    have h2 : y.contains '/' = true := List.elem_eq_true_of_mem hm
    rw [h2] at hslash
    cases hslash
  unfold goClean
  cases hb : y.drop (volumeNameLen y) with
  | nil =>
    rw [hb] at hmatch
    cases hmatch
  | cons c cs =>
    rw [hb] at hmatch
    dsimp only [] at hmatch
    dsimp only []
    rw [hb]
    dsimp only []
    by_cases hc : c = '\\'
    · subst hc
      rw [if_pos rfl] at hmatch
      have hall : ∀ e ∈ goSplit '\\' cs, goodElem e = true :=
        fun e he => List.all_eq_true.mp hmatch e he
      have hjoin : goJoin '\\' (goSplit '\\' cs) = cs := goJoin_goSplit '\\' cs
      rw [show isSlashC '\\' = true from rfl]
      rw [if_pos rfl, if_pos rfl, if_pos rfl]
      have hloop := cleanLoop_canon ('\\' :: cs) (goSplit '\\' cs)
        (('\\' :: cs : Str).length + 1) 1 1 true hall (goSplit_ne_nil '\\' cs)
        (Or.inl ⟨by decide, by simp [hjoin]⟩)
        (by simp only [List.drop_succ_cons, List.drop_zero, List.length_cons]; omega)
      have hloop2 : cleanLoop ('\\' :: cs) (('\\' :: cs : Str).length + 1) cs
          (appendC ('\\' :: cs) ([], true) '\\') true 1 = ('\\' :: cs, true) := hloop
      rw [hloop2]
      rw [if_neg (by simp)]
      rw [show postClean (volumeNameLen y) (('\\' :: cs, true) : Str × Bool) = '\\' :: cs
        from by unfold postClean; simp]
      rw [← hb, List.take_append_drop]
      exact fromSlash_eq_self y hmem
    · rw [if_neg hc] at hmatch
      simp only [Bool.and_eq_true, Bool.not_eq_true'] at hmatch
      obtain ⟨hslc, hallb⟩ := hmatch
      have hall : ∀ e ∈ goSplit '\\' (c :: cs), goodElem e = true :=
        fun e he => List.all_eq_true.mp hallb e he
      have hjoin : goJoin '\\' (goSplit '\\' (c :: cs)) = c :: cs := goJoin_goSplit '\\' (c :: cs)
      rw [hslc]
      rw [if_neg Bool.false_ne_true, if_neg Bool.false_ne_true, if_neg Bool.false_ne_true]
      have hloop := cleanLoop_canon (c :: cs) (goSplit '\\' (c :: cs))
        ((c :: cs : Str).length + 1) 0 0 false hall (goSplit_ne_nil '\\' (c :: cs))
        (Or.inl ⟨by decide, by simp [hjoin]⟩)
        (by simp only [List.drop_zero, List.length_cons]; omega)
      have hloop2 : cleanLoop (c :: cs) ((c :: cs : Str).length + 1) (c :: cs)
          ([], true) false 0 = (c :: cs, true) := hloop
      rw [hloop2]
      rw [if_neg (by simp)]
      rw [show postClean (volumeNameLen y) ((c :: cs, true) : Str × Bool) = c :: cs
        from by unfold postClean; simp]
      rw [← hb, List.take_append_drop]
      exact fromSlash_eq_self y hmem

theorem canon_normalize_fixed (y : Str) (h : Canon y = true) : NormalizePath y = y := by
  have h' := h
  unfold Canon at h'
  simp only [Bool.and_eq_true, beq_iff_eq, Bool.not_eq_true'] at h'
  obtain ⟨⟨⟨hlow, hslash⟩, htrim⟩, -⟩ := h'
  unfold NormalizePath
  rw [hlow, htrim]
  exact canon_fixed y h


/-- C7 counterexample: normalization is not idempotent.  The input `\x5c..`
cleans to the root `\x5c`; normalizing that again strips the trailing
separator and cleans the empty remainder to `.`. -/
theorem normalizePath_not_idempotent_C7 :
    NormalizePath (NormalizePath ("\\..".toList)) ≠ NormalizePath ("\\..".toList) := by
  decide

/-- C7 (amended).  `NormalizePath` is idempotent on every input whose normal
form is canonical: lowercase, slash-free, not ending in a separator, and
consisting (after the volume) of backslash-separated elements none of which is
empty, `.` or `..`.  The normal forms excluded are exactly the degenerate ones
-- roots with a trailing separator (`c:\x5c`, `\x5c`) and strings that
re-parse as a bare volume (`\x5c:`), on which idempotence genuinely fails. -/
theorem normalizePath_idem_C7 (x : Str) (h : Canon (NormalizePath x) = true) :
    NormalizePath (NormalizePath x) = NormalizePath x :=
  canon_normalize_fixed (NormalizePath x) h

/-- Witness: a concrete mixed-case path with a trailing separator whose normal
form is canonical, so the amended idempotence theorem applies to it. -/
theorem normalizePath_idem_C7_witness :
    Canon (NormalizePath ("C:\\Program Files\\Java\\jdk1.8\\bin\\".toList)) = true ∧
      NormalizePath (NormalizePath ("C:\\Program Files\\Java\\jdk1.8\\bin\\".toList))
        = NormalizePath ("C:\\Program Files\\Java\\jdk1.8\\bin\\".toList) :=
  ⟨by decide, normalizePath_idem_C7 _ (by decide)⟩

/-! ## Claim C10: the inline and refactored optimizers agree -/

/-- The fold step of the refactored optimizer, as folded by `processAll`. -/
def procStep (opts : OptimizeOptions) (O : Oracles)
    (acc : ProcState × List Str) (entry : Str) : ProcState × List Str :=
  let r := Proc.processEntry opts O acc.1 entry
  match r.2 with
  | some processed => (r.1, acc.2 ++ [processed])
  | none => (r.1, acc.2)

theorem processAll_eq_foldl (opts : OptimizeOptions) (O : Oracles) (entries : List Str) :
    Proc.processAll opts O entries = entries.foldl (procStep opts O) (initState, []) := rfl

/-- Observable (non-`seen`) agreement of two processing states: the `seen` set
is only consulted by the duplicate check, so when that check is disabled the
two optimizers' states need only agree on the other fields. -/
def obsEq (a b : ProcState) : Prop :=
  a.changes = b.changes ∧ a.duplicatesRemoved = b.duplicatesRemoved ∧
  a.deadPathsRemoved = b.deadPathsRemoved ∧ a.pathsShortened = b.pathsShortened ∧
  a.varsSubstituted = b.varsSubstituted ∧ a.totalSaved = b.totalSaved

theorem tryShorten_obs (opts : OptimizeOptions) (ts : Str → Str × Bool)
    (a b : ProcState) (cur : Str) (h : obsEq a b) :
    obsEq (Proc.tryShorten opts ts a cur).1 (Proc.tryShorten opts ts b cur).1 ∧
      (Proc.tryShorten opts ts a cur).2 = (Proc.tryShorten opts ts b cur).2 := by
  obtain ⟨h1, h2, h3, h4, h5, h6⟩ := h
  unfold Proc.tryShorten
  by_cases hg : (!opts.ShortenPaths || cur.contains '%') = true
  · rw [if_pos hg, if_pos hg]
    exact ⟨⟨h1, h2, h3, h4, h5, h6⟩, rfl⟩
  · rw [if_neg hg, if_neg hg]
    by_cases hr : (!(ts cur).2 || decide (cur.length ≤ (ts cur).1.length)) = true
    · rw [if_pos hr, if_pos hr]
      exact ⟨⟨h1, h2, h3, h4, h5, h6⟩, rfl⟩
    · rw [if_neg hr, if_neg hr]
      exact ⟨⟨by simp [h1], by simp [h2], by simp [h3], by simp [h4], by simp [h5],
        by simp [h6]⟩, rfl⟩

theorem trySubstituteVars_obs (opts : OptimizeOptions) (env : EnvMap)
    (a b : ProcState) (cur : Str) (h : obsEq a b) :
    obsEq (Proc.trySubstituteVars opts env a cur).1 (Proc.trySubstituteVars opts env b cur).1 ∧
      (Proc.trySubstituteVars opts env a cur).2 = (Proc.trySubstituteVars opts env b cur).2 := by
  obtain ⟨h1, h2, h3, h4, h5, h6⟩ := h
  unfold Proc.trySubstituteVars
  by_cases hg : (!opts.SubstituteVars || cur.contains '%') = true
  · rw [if_pos hg, if_pos hg]
    exact ⟨⟨h1, h2, h3, h4, h5, h6⟩, rfl⟩
  · rw [if_neg hg, if_neg hg]
    by_cases hr : (!(SubstituteEnvVars env cur).2
        || decide (cur.length ≤ (SubstituteEnvVars env cur).1.length)) = true
    · rw [if_pos hr, if_pos hr]
      exact ⟨⟨h1, h2, h3, h4, h5, h6⟩, rfl⟩
    · rw [if_neg hr, if_neg hr]
      exact ⟨⟨by simp [h1], by simp [h2], by simp [h3], by simp [h4], by simp [h5],
        by simp [h6]⟩, rfl⟩

theorem tryShortenSuffix_obs (opts : OptimizeOptions) (sfx : Str → Str × Bool)
    (a b : ProcState) (cur : Str) (h : obsEq a b) :
    obsEq (Proc.tryShortenSuffix opts sfx a cur).1 (Proc.tryShortenSuffix opts sfx b cur).1 ∧
      (Proc.tryShortenSuffix opts sfx a cur).2 = (Proc.tryShortenSuffix opts sfx b cur).2 := by
  obtain ⟨h1, h2, h3, h4, h5, h6⟩ := h
  unfold Proc.tryShortenSuffix
  by_cases hg : (!opts.ShortenPaths) = true
  · rw [if_pos hg, if_pos hg]
    exact ⟨⟨h1, h2, h3, h4, h5, h6⟩, rfl⟩
  · rw [if_neg hg, if_neg hg]
    by_cases hr : (!(sfx cur).2 || decide (cur.length ≤ (sfx cur).1.length)) = true
    · rw [if_pos hr, if_pos hr]
      exact ⟨⟨h1, h2, h3, h4, h5, h6⟩, rfl⟩
    · rw [if_neg hr, if_neg hr]
      exact ⟨⟨by simp [h1], by simp [h2], by simp [h3], by simp [h4], by simp [h5],
        by simp [h6]⟩, rfl⟩

/-- The inline 8.3-shortening phase computes exactly `tryShorten`: the inline
acceptance test `r.2 && r.1.length < entry.length` is the negation of the
processor's rejection test. -/
theorem inline_shorten_eq (opts : OptimizeOptions) (ts : Str → Str × Bool)
    (st : ProcState) (e : Str) :
    Inline.shortenPhase opts ts st e = Proc.tryShorten opts ts st e := by
  unfold Inline.shortenPhase Proc.tryShorten
  rcases hsp : opts.ShortenPaths with _ | _
  · simp [hsp]
  · rcases hpc : e.contains '%' with _ | _
    · rcases hr2 : (ts e).2 with _ | _
      · simp [hsp, hpc, hr2]
      · by_cases hlt : (ts e).1.length < e.length
        · have hle : ¬ e.length ≤ (ts e).1.length := by omega
          simp [hsp, hpc, hr2, hlt, hle]
        · have hle : e.length ≤ (ts e).1.length := by omega
          simp [hsp, hpc, hr2, hlt, hle]
    · simp [hsp, hpc]

/-- The inline substitution-plus-suffix phase computes `trySubstituteVars`
followed by `tryShortenSuffix` exactly when the substitution changed the
string: an accepted substitution is strictly shorter, hence different, and a
rejected one returns the input itself. -/
theorem inline_subst_eq (opts : OptimizeOptions) (env : EnvMap) (sfx : Str → Str × Bool)
    (st : ProcState) (cur : Str) :
    Inline.substPhase opts env sfx st cur
    = (if (Proc.trySubstituteVars opts env st cur).2 ≠ cur then
        Proc.tryShortenSuffix opts sfx (Proc.trySubstituteVars opts env st cur).1
          (Proc.trySubstituteVars opts env st cur).2
      else Proc.trySubstituteVars opts env st cur) := by
  unfold Inline.substPhase Proc.trySubstituteVars
  rcases hsv : opts.SubstituteVars with _ | _
  · simp [hsv]
  · rcases hpc : cur.contains '%' with _ | _
    · rcases hr2 : (SubstituteEnvVars env cur).2 with _ | _
      · simp [hsv, hpc, hr2]
      · by_cases hlt : (SubstituteEnvVars env cur).1.length < cur.length
        · have hle : ¬ cur.length ≤ (SubstituteEnvVars env cur).1.length := by omega
          have hne : (SubstituteEnvVars env cur).1 ≠ cur := by
            intro hh
            rw [hh] at hlt
            omega
          unfold Proc.tryShortenSuffix
          rcases hsp : opts.ShortenPaths with _ | _
          · simp [hsv, hpc, hr2, hlt, hle, hne, hsp]
          · rcases hr22 : (sfx (SubstituteEnvVars env cur).1).2 with _ | _
            · simp [hsv, hpc, hr2, hlt, hle, hne, hsp, hr22]
            · by_cases hlt2 : (sfx (SubstituteEnvVars env cur).1).1.length
                  < (SubstituteEnvVars env cur).1.length
              · have hle2 : ¬ (SubstituteEnvVars env cur).1.length
                    ≤ (sfx (SubstituteEnvVars env cur).1).1.length := by omega
                simp [hsv, hpc, hr2, hlt, hle, hne, hsp, hr22, hlt2, hle2]
              · have hle2 : (SubstituteEnvVars env cur).1.length
                    ≤ (sfx (SubstituteEnvVars env cur).1).1.length := by omega
                simp [hsv, hpc, hr2, hlt, hle, hne, hsp, hr22, hlt2, hle2]
        · have hle : cur.length ≤ (SubstituteEnvVars env cur).1.length := by omega
          simp [hsv, hpc, hr2, hlt, hle]
    · simp [hsv, hpc]

/-- With duplicate removal on, the two loop bodies agree on the full state:
both mark `seen` in exactly the non-duplicate case. -/
theorem step_eq_of_rd (opts : OptimizeOptions) (O : Oracles)
    (hrd : opts.RemoveDuplicates = true) (acc : ProcState × List Str) (e : Str) :
    Inline.step opts O acc e = procStep opts O acc e := by
  unfold Inline.step procStep Proc.processEntry Proc.isDuplicate Proc.isDeadPath
  simp only [hrd, Bool.not_true, Bool.true_and, Bool.false_eq_true, if_false]
  rcases hdup : acc.1.seen.contains (NormalizePath e) with _ | _
  · simp only [hdup, Bool.false_eq_true, if_false]
    rcases hrdp : opts.RemoveDeadPaths with _ | _ <;>
      rcases hpc : e.contains '%' with _ | _ <;>
        rcases hpe : PathExists O.fs e with _ | _ <;>
          simp only [hrdp, hpc, hpe, Bool.not_true, Bool.not_false, Bool.true_and,
            Bool.false_and, Bool.and_true, Bool.and_false, Bool.false_eq_true,
            Bool.true_eq_false, if_true, if_false] <;>
          rw [inline_shorten_eq, inline_subst_eq] <;>
          rcases hS1 : Proc.tryShorten opts O.toShort
              { acc.1 with seen := NormalizePath e :: acc.1.seen } e with ⟨a1, c1⟩ <;>
          rcases hS2 : Proc.trySubstituteVars opts O.env a1 c1 with ⟨a2, c2⟩ <;>
          by_cases hc : c2 ≠ c1
    all_goals dsimp only []
    all_goals
      first
      | rw [if_pos hc, if_pos hc]
      | rw [if_neg hc, if_neg hc]
  · simp only [hdup, if_true]

/-- With duplicate removal off, the inline loop still marks `seen` while the
processor does not; every other state component and the emitted entries agree. -/
theorem step_obs (opts : OptimizeOptions) (O : Oracles)
    (hrd : opts.RemoveDuplicates = false) (a b : ProcState) (tl : List Str) (e : Str)
    (h : obsEq a b) :
    obsEq (Inline.step opts O (a, tl) e).1 (procStep opts O (b, tl) e).1 ∧
      (Inline.step opts O (a, tl) e).2 = (procStep opts O (b, tl) e).2 := by
  obtain ⟨h1, h2, h3, h4, h5, h6⟩ := h
  have h' : obsEq { a with seen := NormalizePath e :: a.seen } b :=
    ⟨h1, h2, h3, h4, h5, h6⟩
  unfold Inline.step procStep Proc.processEntry Proc.isDuplicate Proc.isDeadPath
  simp only [hrd, Bool.not_false, Bool.false_and, Bool.false_eq_true, if_false, if_true]
  rcases hrdp : opts.RemoveDeadPaths with _ | _ <;>
    rcases hpc : e.contains '%' with _ | _ <;>
      rcases hpe : PathExists O.fs e with _ | _ <;>
        simp only [hrdp, hpc, hpe, Bool.not_true, Bool.not_false, Bool.true_and,
          Bool.false_and, Bool.and_true, Bool.and_false, Bool.false_eq_true,
          Bool.true_eq_false, if_true, if_false]
  all_goals
    first
    | exact ⟨⟨by simp [h1], by simp [h2], by simp [h3], by simp [h4], by simp [h5],
        by simp [h6]⟩, by trivial⟩
    | (rw [inline_shorten_eq, inline_subst_eq]
       rcases hS1 : Proc.tryShorten opts O.toShort
           { a with seen := NormalizePath e :: a.seen } e with ⟨a1, c1⟩
       rcases hT1 : Proc.tryShorten opts O.toShort b e with ⟨b1, d1⟩
       have hO1 := tryShorten_obs opts O.toShort
         { a with seen := NormalizePath e :: a.seen } b e h'
       rw [hS1, hT1] at hO1
       obtain ⟨hob1, hcur1⟩ := hO1
       dsimp only [] at hcur1
       subst hcur1
       rcases hS2 : Proc.trySubstituteVars opts O.env a1 c1 with ⟨a2, c2⟩
       rcases hT2 : Proc.trySubstituteVars opts O.env b1 c1 with ⟨b2, d2⟩
       have hO2 := trySubstituteVars_obs opts O.env a1 b1 c1 hob1
       rw [hS2, hT2] at hO2
       obtain ⟨hob2, hcur2⟩ := hO2
       dsimp only [] at hcur2
       subst hcur2
       dsimp only []
       by_cases hc : c2 ≠ c1
       · rw [if_pos hc, if_pos hc]
         rcases hS3 : Proc.tryShortenSuffix opts O.shortenSfx a2 c2 with ⟨a3, c3⟩
         rcases hT3 : Proc.tryShortenSuffix opts O.shortenSfx b2 c2 with ⟨b3, d3⟩
         have hO3 := tryShortenSuffix_obs opts O.shortenSfx a2 b2 c2 hob2
         rw [hS3, hT3] at hO3
         obtain ⟨hob3, hcur3⟩ := hO3
         dsimp only [] at hcur3
         subst hcur3
         exact ⟨hob3, rfl⟩
       · rw [if_neg hc, if_neg hc]
         exact ⟨hob2, rfl⟩)

theorem fold_eq_of_rd (opts : OptimizeOptions) (O : Oracles)
    (hrd : opts.RemoveDuplicates = true) (entries : List Str) :
    ∀ init, entries.foldl (Inline.step opts O) init
      = entries.foldl (procStep opts O) init := by
  induction entries with
  | nil => intro init; rfl
  | cons x xs ih =>
    intro init
    rw [List.foldl_cons, List.foldl_cons, step_eq_of_rd opts O hrd, ih]

theorem fold_obs (opts : OptimizeOptions) (O : Oracles)
    (hrd : opts.RemoveDuplicates = false) :
    ∀ (entries : List Str) (a b : ProcState) (tl : List Str), obsEq a b →
      obsEq (entries.foldl (Inline.step opts O) (a, tl)).1
          (entries.foldl (procStep opts O) (b, tl)).1 ∧
        (entries.foldl (Inline.step opts O) (a, tl)).2
          = (entries.foldl (procStep opts O) (b, tl)).2 := by
  intro entries
  induction entries with
  | nil => intro a b tl h; exact ⟨h, rfl⟩
  | cons x xs ih =>
    intro a b tl h
    rw [List.foldl_cons, List.foldl_cons]
    obtain ⟨hobs, hsnd⟩ := step_obs opts O hrd a b tl x h
    rcases hI : Inline.step opts O (a, tl) x with ⟨a1, tl1⟩
    rcases hP : procStep opts O (b, tl) x with ⟨b1, tl2⟩
    rw [hI, hP] at hobs hsnd
    dsimp only [] at hobs hsnd
    subst hsnd
    exact ih a1 b1 tl1 hobs

/-- C10.  The inline optimizer (part_002) and the refactored entry-processor
optimizer (part_003) return equal `OptimizeResult` values on every PATH
string, option set, oracle assignment and persisted config, including
identical change logs and metrics. -/
theorem optimizer_equiv_C10 (pathStr : Str) (opts : OptimizeOptions) (O : Oracles)
    (config : Config) :
    Inline.OptimizeWithProgress pathStr opts O config
      = Proc.OptimizeWithProgress pathStr opts O config := by
  simp only [Inline.OptimizeWithProgress, Proc.OptimizeWithProgress, processAll_eq_foldl]
  rcases hrd : opts.RemoveDuplicates with _ | _
  · obtain ⟨⟨g1, g2, g3, g4, g5, g6⟩, gsnd⟩ :=
      fold_obs opts O hrd (ParsePath pathStr) initState initState []
        ⟨rfl, rfl, rfl, rfl, rfl, rfl⟩
    rw [gsnd, g1, g2, g3, g4, g5, g6]
  · rw [fold_eq_of_rd opts O hrd]

end WinPath

